import Mathlib

/-!
Shallow embedding of the CatSort puzzle engine
(src/app/components/match/CatSort.tsx).

Boxes are sorted into stacks; the top of a stack is index 0.  The engine
consists of pure helpers (getMatchingTopBoxes, checkCompletion,
checkForValidMoves), a session step function (stack clicks performing moves,
and undo), and a randomized board generator (initializeGame).

Randomness is injected as explicit parameters: JavaScript shuffles that are
implemented as Array.sort with a random comparator have engine-defined
results and are modelled as permutation parameters (constrained by Perm
hypotheses in the theorems); all other random draws (index picks and
coin flips) are modelled as streams of naturals / booleans.
-/

namespace CatSortModel

/-- MAX_STACK_SIZE (CatSort.tsx:28): number of boxes per stack. -/
def MAX_STACK_SIZE : Nat := 4

/-- A cat kind (CatSort.tsx:19-25).  Only the id enters engine logic; the
display attributes (name, image, colors) are presentation-only and omitted.
The ids of the fixed catalog are distinct. -/
structure Cat where
  id : Nat
deriving DecidableEq, Repr

/-- A sortable box (CatSort.tsx:60-65).  The source id is the string
"catid-i"; it is modelled as the pair (cat.id, i), which is faithful to
its distinctness.  The transient animation fields (isMoving, targetStack)
never enter engine logic and are omitted. -/
structure CatBox where
  id : Nat × Nat
  cat : Cat
deriving DecidableEq, Repr

instance : Inhabited CatBox := ⟨⟨(0, 0), ⟨0⟩⟩⟩

/-- A stack of boxes, top = index 0 (CatSort.tsx:67). -/
abbrev Stack := List CatBox

/-- The board: the list of stacks held in the stacks state variable. -/
abbrev Board := List Stack

/-- Number of boxes of cat id c in a list of boxes. -/
def countCat (c : Nat) (l : List CatBox) : Nat :=
  l.countP fun b => b.cat.id == c

/-- getMatchingTopBoxes (CatSort.tsx:323-339): the group of boxes from the
top of a stack (index 0) up to but not including the first box whose cat
differs from the top box.  The source loop pushes stack[i] while
stack[i].cat.id equals the top cat id and breaks at the first mismatch,
which is takeWhile on the tail. -/
def getMatchingTopBoxes (stack : Stack) : Stack :=
  match stack with
  | [] => []
  | topBox :: rest => topBox :: rest.takeWhile fun b => b.cat.id == topBox.cat.id

/-- One iteration of the currentStacks.forEach loop building catMap
(CatSort.tsx:366-382): a non-empty stack writes its length under the cat id
of its top box, except that a key already holding MAX_STACK_SIZE is
overwritten with -1; keys absent from the map (cats not in play) are left
untouched; empty stacks are skipped. -/
def updateCatMap (m : Nat → Option Int) (stack : Stack) : Nat → Option Int :=
  match stack with
  | [] => m
  | b :: _ =>
    match m b.cat.id with
    | none => m
    | some v =>
      fun c =>
        if c = b.cat.id then
          some (if v = (MAX_STACK_SIZE : Int) then -1 else (stack.length : Int))
        else m c

/-- checkCompletion (CatSort.tsx:342-396), the isComplete(board) evaluator:
every non-empty stack must hold a single cat, and the catMap built over the
stacks must hold MAX_STACK_SIZE for every active cat.  The catMap record is
modelled as a function from cat ids to Option Int (none = key absent);
Object.values(catMap).every(c => c === MAX_STACK_SIZE) reads exactly the
keys seeded from activeCats, since the update never adds a key. -/
def checkCompletion (activeCats : List Cat) (currentStacks : Board) : Bool :=
  let eachStackValid := currentStacks.all fun stack =>
    match stack with
    | [] => true
    | b :: _ => stack.all fun box => box.cat.id == b.cat.id
  if !eachStackValid then false
  else
    let initMap : Nat → Option Int :=
      fun c => if activeCats.any fun cat => cat.id == c then some 0 else none
    let finalMap := currentStacks.foldl updateCatMap initMap
    let allCatsComplete := activeCats.all fun cat =>
      finalMap cat.id == some (MAX_STACK_SIZE : Int)
    eachStackValid && allCatsComplete

/-- checkForValidMoves (CatSort.tsx:399-436), the hasAnyLegalMove(board)
evaluator: true when some stack is empty, otherwise a scan over ordered
pairs of distinct stack indices looking for a legal destination for the
matching top group of the source. -/
def checkForValidMoves (currentStacks : Board) : Bool :=
  if currentStacks.any fun stack => stack.isEmpty then true
  else
    (List.range currentStacks.length).any fun fromStackIndex =>
      let sourceStack := currentStacks.getD fromStackIndex []
      if sourceStack.isEmpty then false
      else
        let matchingBoxes := getMatchingTopBoxes sourceStack
        (List.range currentStacks.length).any fun toStackIndex =>
          if fromStackIndex = toStackIndex then false
          else
            let destStack := currentStacks.getD toStackIndex []
            if destStack.length + matchingBoxes.length ≤ MAX_STACK_SIZE then
              if destStack.isEmpty then true
              else
                match destStack, matchingBoxes with
                | d :: _, mb :: _ => d.cat.id == mb.cat.id
                | _, _ => false
            else false

/-- A move history record (CatSort.tsx:81): { from, to, count }.  The
fields are renamed src / dst because from is a reserved word in Lean. -/
structure MoveRec where
  src : Nat
  dst : Nat
  count : Nat
deriving DecidableEq, Repr

/-- The per-session React state of the component (CatSort.tsx:76-86)
restricted to the fields the engine reads or writes.  notified counts the
invocations of the external onComplete callback (assumed provided), the
puzzle-solved notification.  isAnimating and animatingBoxes are omitted:
the adapter rejects clicks while an animation is in flight, so between
events isAnimating is always false and each accepted mutation is applied
atomically (the setTimeout body of animateBoxMovement runs before the next
event). -/
structure GameState where
  boardStacks : Board
  selectedStackIndex : Option Nat
  moveCount : Int
  isComplete : Bool
  isLost : Bool
  moves : List MoveRec
  activeCats : List Cat
  notified : Nat
deriving DecidableEq, Repr

/-- The setTimeout body of animateBoxMovement (CatSort.tsx:452-481): moves
the matching top group of the stack at fromStackIndex onto the top of the
stack at toStackIndex, then re-evaluates completion (which fires the
onComplete notification whenever it reports true, CatSort.tsx:391-393) and,
if incomplete, sets the lost flag when no valid move remains.  Note that the
group moved is recomputed here with getMatchingTopBoxes; the box ids passed
to the animation only drive the visuals. -/
def applyAnimation (s : GameState) (fromStackIndex toStackIndex : Nat) : GameState :=
  let sourceStack := s.boardStacks.getD fromStackIndex []
  let matchingBoxes := getMatchingTopBoxes sourceStack
  let stacks1 := s.boardStacks.set fromStackIndex (sourceStack.drop matchingBoxes.length)
  let stacks2 := stacks1.set toStackIndex (matchingBoxes ++ stacks1.getD toStackIndex [])
  let isGameComplete := checkCompletion s.activeCats stacks2
  { s with
    boardStacks := stacks2
    isComplete := isGameComplete
    notified := s.notified + (if isGameComplete then 1 else 0)
    isLost :=
      if !isGameComplete && !checkForValidMoves stacks2 then true else s.isLost }

/-- handleStackClick (CatSort.tsx:485-546).  A click is ignored while the
game is complete or lost (or animating, which cannot hold between events).
With no selection, clicking a non-empty stack selects it.  With a selection,
clicking the same stack deselects; otherwise the matching top group of the
selected stack is moved onto the clicked stack when it fits and the cats
match, recording the move and incrementing the move counter; in every other
case only the selection is cleared. -/
def handleStackClick (s : GameState) (stackIndex : Nat) : GameState :=
  if s.isComplete || s.isLost then s
  else
    match s.selectedStackIndex with
    | none =>
      if 0 < (s.boardStacks.getD stackIndex []).length then
        { s with selectedStackIndex := some stackIndex }
      else s
    | some fromStackIndex =>
      if fromStackIndex = stackIndex then { s with selectedStackIndex := none }
      else
        let sourceStack := s.boardStacks.getD fromStackIndex []
        let matchingBoxes := getMatchingTopBoxes sourceStack
        let destinationStack := s.boardStacks.getD stackIndex []
        if destinationStack.length + matchingBoxes.length ≤ MAX_STACK_SIZE then
          if 0 < destinationStack.length ∧
              (destinationStack.getD 0 default).cat.id ≠
                (matchingBoxes.getD 0 default).cat.id then
            { s with selectedStackIndex := none }
          else
            let s1 := { s with
              moveCount := s.moveCount + 1
              moves := s.moves ++ [⟨fromStackIndex, stackIndex, matchingBoxes.length⟩]
              selectedStackIndex := none }
            applyAnimation s1 fromStackIndex stackIndex
        else
          { s with selectedStackIndex := none }

/-- undoMove (CatSort.tsx:549-566): ignored when the history is empty or
the game is complete (or animating).  Otherwise the last move record is
popped, the move counter decremented, the complete and lost flags cleared,
and the stack update is delegated to the animation with source record.to
and destination record.from.  The boxes sliced at CatSort.tsx:555 only feed
the animation visuals; the stacks themselves are updated by the
setTimeout body, which moves the whole matching top group of record.to. -/
def undoMove (s : GameState) : GameState :=
  match s.moves.getLast? with
  | none => s
  | some lastMove =>
    if s.isComplete then s
    else
      let s1 := { s with
        moveCount := s.moveCount - 1
        moves := s.moves.dropLast
        isComplete := false
        isLost := false }
      applyAnimation s1 lastMove.dst lastMove.src

/-- The tail of initializeGame (CatSort.tsx:312-319): the fresh session
state installed once a generated board passed validation. -/
def initState (newStacks : Board) (cats : List Cat) : GameState :=
  { boardStacks := newStacks
    selectedStackIndex := none
    moveCount := 0
    isComplete := false
    isLost := false
    moves := []
    activeCats := cats
    notified := 0 }

/-- The events the presentation adapter can feed the engine within one
session: a click on a stack, or the undo button. -/
inductive Event where
  | click (stackIndex : Nat)
  | undo
deriving DecidableEq, Repr

/-- One session step. -/
def step (s : GameState) : Event → GameState
  | Event.click i => handleStackClick s i
  | Event.undo => undoMove s

/-! Concrete cats and boxes used by witnesses and counterexamples. -/

def catX : Cat := ⟨0⟩

def catY : Cat := ⟨1⟩

def boxX (i : Nat) : CatBox := ⟨(0, i), catX⟩

def boxY (i : Nat) : CatBox := ⟨(1, i), catY⟩

/-- The legality predicate of the spec for a move attempt: the destination
has room for the matching top group of the source, and is empty or has a
matching cat on top. -/
def legalMove (board : Board) (fromIdx toIdx : Nat) : Prop :=
  let group := getMatchingTopBoxes (board.getD fromIdx [])
  let dest := board.getD toIdx []
  dest.length + group.length ≤ MAX_STACK_SIZE ∧
    (dest = [] ∨ (dest.getD 0 default).cat.id = (group.getD 0 default).cat.id)

instance (board : Board) (fromIdx toIdx : Nat) :
    Decidable (legalMove board fromIdx toIdx) := by
  unfold legalMove; infer_instance

/-- Concrete session state for the C4 witness: stacks
[[X0, X1], [Y0], []], stack 0 selected. -/
def c4State : GameState :=
  { boardStacks := [[boxX 0, boxX 1], [boxY 0], []]
    selectedStackIndex := some 0
    moveCount := 0
    isComplete := false
    isLost := false
    moves := []
    activeCats := [catX, catY]
    notified := 0 }

/-- Concrete session state for the C5 witness: stacks
[[X0, X1], [Y0], []], stack 0 selected. -/
def c5State : GameState :=
  { boardStacks := [[boxX 0, boxX 1], [boxY 0], []]
    selectedStackIndex := some 0
    moveCount := 0
    isComplete := false
    isLost := false
    moves := []
    activeCats := [catX, catY]
    notified := 0 }

/-- Concrete session state for the C10 witness: one recorded move, counter
1, stack 0 selected. -/
def c10State : GameState :=
  { boardStacks := [[boxX 0], [boxY 0], []]
    selectedStackIndex := some 0
    moveCount := 1
    isComplete := false
    isLost := false
    moves := [⟨2, 0, 1⟩]
    activeCats := [catX, catY]
    notified := 0 }

/-- The lengths of the stacks whose top box has cat id c, in board
order — the stacks that touch the catMap entry of c. -/
def occLens (c : Nat) : Board → List Nat
  | [] => []
  | st :: rest =>
    match st with
    | [] => occLens c rest
    | b :: _ =>
      if b.cat.id = c then st.length :: occLens c rest else occLens c rest

/-- The value the catMap fold leaves under one key, as a function of the
lengths of the stacks topped by that cat: each such stack overwrites the
entry with its length, except that an entry holding MAX_STACK_SIZE is
overwritten with -1. -/
def catFold (v : Int) : List Nat → Int
  | [] => v
  | l :: ls => catFold (if v = (MAX_STACK_SIZE : Int) then -1 else (l : Int)) ls

/-- The completion property in the words of the spec: every non-empty stack
holds a single cat, and for every cat in play all MAX_STACK_SIZE boxes of
that cat reside together in exactly one stack (the stack at a unique index
holds all of them, and every stack holding any box of that cat is that
one). -/
def isCompleteSpec (activeCats : List Cat) (stks : Board) : Prop :=
  (∀ st ∈ stks, ∀ b1 ∈ st, ∀ b2 ∈ st, b1.cat.id = b2.cat.id) ∧
  ∀ cat ∈ activeCats,
    ∃ i, i < stks.length ∧
      countCat cat.id (stks.getD i []) = MAX_STACK_SIZE ∧
      ∀ j, j < stks.length → 0 < countCat cat.id (stks.getD j []) → j = i

/-- The notification behaviour of the evaluator over a sequence of
evaluations (CatSort.tsx:388-393): every call of checkCompletion whose
computed flag is true invokes the external onComplete callback — the
function body has no fired-already guard — so over a list of evaluated
boards the number of notifications is the number of evaluations that
report true. -/
def completionNotificationCount (activeCats : List Cat) (boards : List Board) :
    Nat :=
  (boards.filter fun b => checkCompletion activeCats b).length

/-- Concrete completed session state for the C9 witness. -/
def c9DoneState : GameState :=
  { boardStacks := [[boxX 0, boxX 1, boxX 2, boxX 3],
      [boxY 0, boxY 1, boxY 2, boxY 3]]
    selectedStackIndex := none
    moveCount := 3
    isComplete := true
    isLost := false
    moves := [⟨0, 1, 1⟩]
    activeCats := [catX, catY]
    notified := 1 }

/-- Concrete about-to-complete session state for the C9 witness. -/
def c9TransState : GameState :=
  { boardStacks := [[boxX 3], [boxX 0, boxX 1, boxX 2],
      [boxY 0, boxY 1, boxY 2, boxY 3]]
    selectedStackIndex := some 0
    moveCount := 0
    isComplete := false
    isLost := false
    moves := []
    activeCats := [catX, catY]
    notified := 0 }

/-- Difficulty levels (CatSort.tsx:37). -/
inductive Difficulty where
  | easy
  | medium
  | hard
deriving DecidableEq, Repr

/-- One difficulty profile of DIFFICULTY_CONFIG (CatSort.tsx:39-58).  The
breakupProbability field enters the engine only through Math.random() < p
coin flips, which are injected as boolean streams, so it is not a field of
the model configuration. -/
structure Config where
  cats : Nat
  stacksN : Nat
  emptyStacks : Nat
deriving DecidableEq, Repr

/-- DIFFICULTY_CONFIG (CatSort.tsx:39-58). -/
def DIFFICULTY_CONFIG : Difficulty → Config
  | Difficulty.easy => ⟨4, 6, 2⟩
  | Difficulty.medium => ⟨6, 8, 2⟩
  | Difficulty.hard => ⟨8, 10, 2⟩

/-- preMatchedPairs (CatSort.tsx:161). -/
def preMatchedPairs : Difficulty → Nat
  | Difficulty.easy => 4
  | Difficulty.medium => 3
  | Difficulty.hard => 2

/-- Box creation (CatSort.tsx:136-145): MAX_STACK_SIZE boxes per cat, in
catalog order, with ids (cat.id, i). -/
def allBoxesFor (availableCats : List Cat) : List CatBox :=
  availableCats.flatMap fun cat =>
    (List.range MAX_STACK_SIZE).map fun i => ⟨(cat.id, i), cat⟩

/-- Removal of one selected box from remainingBoxes (CatSort.tsx:184-187):
findIndex by id then splice, i.e. erase the first box carrying the id (a
no-op when the id is absent, like the idx !== -1 guard). -/
def removeById (boxId : Nat × Nat) (l : List CatBox) : List CatBox :=
  l.eraseP fun b => b.id == boxId

/-- The pre-match grouping loop (CatSort.tsx:168-188): up to
preMatchedPairs times, while remainingBoxes is non-empty, pick a random
box, move the first min 3 boxes of its cat (in remaining order) to
organizedBoxes and erase them from remainingBoxes.  picks is the stream of
random indices (Math.floor(Math.random()*len) modelled as picks i %
len). -/
def preMatchLoop (picks : Nat → Nat) :
    Nat → Nat → List CatBox × List CatBox → List CatBox × List CatBox
  | 0, _, st => st
  | n + 1, i, (org, rem) =>
    if rem.length = 0 then (org, rem)
    else
      let boxIndex := picks i % rem.length
      let catId := (rem.getD boxIndex default).cat.id
      let samecatBoxes := rem.filter fun b => b.cat.id == catId
      let pairSize := min 3 samecatBoxes.length
      let selectedBoxes := samecatBoxes.take pairSize
      preMatchLoop picks n (i + 1)
        (org ++ selectedBoxes,
          selectedBoxes.foldl (fun r b => removeById b.id r) rem)

/-- mixedBoxes (CatSort.tsx:164-191): organizedBoxes followed by the
remaining shuffled boxes. -/
def mixedBoxes (d : Difficulty) (picks : Nat → Nat) (shuffled : List CatBox) :
    List CatBox :=
  let p := preMatchLoop picks (preMatchedPairs d) 0 ([], shuffled)
  p.1 ++ p.2

/-- First distribution pass (CatSort.tsx:193-203): stack i receives the
mixed boxes at indices i*boxesPerStack + j for j < boxesPerStack that
exist. -/
def firstPassStacks (mixed : List CatBox) (filledStacks boxesPerStack : Nat) :
    Board :=
  (List.range filledStacks).map fun i =>
    (List.range boxesPerStack).filterMap fun j =>
      mixed[i * boxesPerStack + j]?

/-- The leftover redistribution while loop (CatSort.tsx:207-216), indexed
by fuel counting loop iterations (the loop as written can cycle forever
when leftovers remain and every stack is full, since stackIndex wraps
around; none models running out of fuel).  In every reachable
configuration the leftover list is empty and the body never runs. -/
def distributeLeftovers (filledStacks : Nat) :
    Nat → List CatBox → Nat → Board → Option Board
  | 0, leftover, stackIndex, stks =>
    if leftover.isEmpty || filledStacks ≤ stackIndex then some stks else none
  | fuel + 1, leftover, stackIndex, stks =>
    match leftover with
    | [] => some stks
    | box :: rest =>
      if filledStacks ≤ stackIndex then some stks
      else if (stks.getD stackIndex []).length < MAX_STACK_SIZE then
        distributeLeftovers filledStacks fuel rest
          ((stackIndex + 1) % filledStacks)
          (stks.set stackIndex ((stks.getD stackIndex []) ++ [box]))
      else
        distributeLeftovers filledStacks fuel (box :: rest)
          ((stackIndex + 1) % filledStacks) stks

/-- Easy-mode grouping (CatSort.tsx:226-234): each filled stack is, with 70
percent probability (the injected coin flips), sorted by cat id
(localeCompare on the catalog ids cat-0 .. cat-7 is numeric order on the
modelled ids). -/
def easyGrouping (filledStacks : Nat) (sortBools : Nat → Bool) (stks : Board) :
    Board :=
  (List.range filledStacks).foldl
    (fun acc i =>
      if sortBools i then
        acc.set i ((acc.getD i []).mergeSort fun a b =>
          decide (a.cat.id ≤ b.cat.id))
      else acc)
    stks

/-- Swap of the boxes at positions (i, j) and (r, rb) of a board, modelled
sequentially like the source (temp = s[i][j]; s[i][j] = s[r][rb];
s[r][rb] = temp). -/
def swapBoxes (stks : Board) (i j r rb : Nat) : Board :=
  let a := (stks.getD i []).getD j default
  let b := (stks.getD r []).getD rb default
  let stks1 := stks.set i ((stks.getD i []).set j b)
  stks1.set r ((stks1.getD r []).set rb a)

/-- Non-easy perturbation (CatSort.tsx:237-258): each filled stack is first
reshuffled (a random-comparator sort, injected as the permutation
parameter shuffleStack), and a full single-cat stack then has its top box
swapped with a random box of another filled stack.  monoPicks supplies the
two random draws of each iteration; the index arithmetic i + 1 + pick %
(filledStacks - 1) matches Math.floor(Math.random() * (filledStacks - 1))
for the configured filledStacks ≥ 2. -/
def antiMonolith (filledStacks : Nat) (shuffleStack : Nat → Stack → Stack)
    (monoPicks : Nat → Nat × Nat) (stks : Board) : Board :=
  (List.range filledStacks).foldl
    (fun acc i =>
      let acc1 := acc.set i (shuffleStack i (acc.getD i []))
      let st := acc1.getD i []
      if 0 < st.length ∧
          (st.all fun box => box.cat.id == (st.getD 0 default).cat.id) = true ∧
          st.length = MAX_STACK_SIZE then
        let randomStackIndex :=
          (i + 1 + (monoPicks i).1 % (filledStacks - 1)) % filledStacks
        let randomBoxIndex :=
          (monoPicks i).2 % (acc1.getD randomStackIndex []).length
        swapBoxes acc1 i 0 randomStackIndex randomBoxIndex
      else acc1)
    stks

/-- The inner j loop of the breakup step (CatSort.tsx:262-278), fuel
bounded by the stack length (which the body preserves): a pair of adjacent
same-cat boxes is, on a coin flip, broken by swapping position j with a
random box of another non-empty filled stack. -/
def breakupInner (filledStacks i : Nat) (coin : Nat → Nat → Bool)
    (picks : Nat → Nat → Nat × Nat) : Nat → Nat → Board → Board
  | 0, _, stks => stks
  | fuel + 1, j, stks =>
    if j < (stks.getD i []).length then
      let st := stks.getD i []
      let stks2 :=
        if ((st.getD j default).cat.id == (st.getD (j - 1) default).cat.id)
            && coin i j then
          let r := (i + 1 + (picks i j).1 % (filledStacks - 1)) % filledStacks
          if 0 < (stks.getD r []).length then
            let rb := (picks i j).2 % (stks.getD r []).length
            swapBoxes stks i j r rb
          else stks
        else stks
      breakupInner filledStacks i coin picks fuel (j + 1) stks2
    else stks

/-- The breakup pass (CatSort.tsx:261-279): for every filled stack, walk
the positions from 1 and probabilistically break up adjacent same-cat
pairs. -/
def breakupStep (filledStacks : Nat) (coin : Nat → Nat → Bool)
    (picks : Nat → Nat → Nat × Nat) (stks : Board) : Board :=
  (List.range filledStacks).foldl
    (fun acc i =>
      breakupInner filledStacks i coin picks (acc.getD i []).length 1 acc)
    stks

/-- The first post-condition check (CatSort.tsx:287-301): some stack holds
more than MAX_STACK_SIZE boxes. -/
def oversizedStacks (stks : Board) : Bool :=
  stks.any fun st => MAX_STACK_SIZE < st.length

/-- The second post-condition check (CatSort.tsx:296-304): some cat
appearing on the board has more than MAX_STACK_SIZE boxes in total. -/
def tooManyOfOneCat (stks : Board) : Bool :=
  stks.flatten.any fun b => MAX_STACK_SIZE < countCat b.cat.id stks.flatten

/-- The random draws consumed by one generation attempt.  shuffled stands
for the line-148 shuffle of allBoxes and shuffleStack for the line-240
within-stack reshuffles: both are Array.sort with a random comparator,
whose outcome is engine-defined, so they are injected as permutation
parameters (constrained to permutations in GenRand.WF); the remaining
fields model Math.floor(Math.random()*n) index draws and
Math.random() < p coin flips. -/
structure GenRand where
  shuffled : List CatBox
  preMatchPicks : Nat → Nat
  sortBools : Nat → Bool
  shuffleStack : Nat → Stack → Stack
  monoPicks : Nat → Nat × Nat
  breakCoin : Nat → Nat → Bool
  breakPicks : Nat → Nat → Nat × Nat

/-- Well-formedness of the injected random draws: the two random-comparator
sorts produce permutations of their inputs. -/
def GenRand.WF (availableCats : List Cat) (r : GenRand) : Prop :=
  r.shuffled.Perm (allBoxesFor availableCats) ∧
  ∀ i st, (r.shuffleStack i st).Perm st

/-- One attempt of initializeGame (CatSort.tsx:133-310) up to the
post-condition validation: box creation, shuffle and pre-match grouping,
round-robin distribution with leftover redistribution, appending the empty
stacks, the difficulty perturbation and the breakup pass. -/
def generateOnce (availableCats : List Cat) (d : Difficulty) (r : GenRand) :
    Option Board :=
  let config := DIFFICULTY_CONFIG d
  let allBoxes := allBoxesFor availableCats
  let mixed := mixedBoxes d r.preMatchPicks r.shuffled
  let filledStacks := config.stacksN - config.emptyStacks
  let boxesPerStack :=
    min MAX_STACK_SIZE ((allBoxes.length + filledStacks - 1) / filledStacks)
  let firstPass := firstPassStacks mixed filledStacks boxesPerStack
  let leftoverBoxes := mixed.drop (filledStacks * boxesPerStack)
  match distributeLeftovers filledStacks
      (leftoverBoxes.length * filledStacks + filledStacks + 1)
      leftoverBoxes 0 firstPass with
  | none => none
  | some filled =>
    let withEmpty := filled ++ List.replicate config.emptyStacks []
    let perturbed :=
      match d with
      | Difficulty.easy => easyGrouping filledStacks r.sortBools withEmpty
      | _ => antiMonolith filledStacks r.shuffleStack r.monoPicks withEmpty
    some (breakupStep filledStacks r.breakCoin r.breakPicks perturbed)

/-- initializeGame with its recursive regeneration (CatSort.tsx:307-310):
the outer fuel counts generation attempts — the source recursion carries no
bound, so none here means the recursion has not returned within fuel
attempts; attempt k consumes the fresh random draws rands k.  The early
return for an empty cat list (CatSort.tsx:134) and a diverging leftover
loop also yield none. -/
def initializeGameAux (availableCats : List Cat) (d : Difficulty)
    (rands : Nat → GenRand) : Nat → Nat → Option Board
  | 0, _ => none
  | fuel + 1, attempt =>
    if availableCats.isEmpty then none
    else
      match generateOnce availableCats d (rands attempt) with
      | none => none
      | some newStacks =>
        if oversizedStacks newStacks || tooManyOfOneCat newStacks then
          initializeGameAux availableCats d rands fuel (attempt + 1)
        else some newStacks

/-- initializeGame (CatSort.tsx:133-320) yielding the validated board that
the state setters install. -/
def initializeGame (availableCats : List Cat) (d : Difficulty)
    (rands : Nat → GenRand) (fuel : Nat) : Option Board :=
  initializeGameAux availableCats d rands fuel 0

/-- The shape invariant threaded through the perturbation passes: same
number of stacks, same length of every stack, and the same boxes overall
(flatten permutation). -/
def BoardShape (base stks : Board) : Prop :=
  stks.length = base.length ∧
  (∀ k, (stks.getD k []).length = (base.getD k []).length) ∧
  stks.flatten.Perm base.flatten

/-- Concrete cat catalog for the C8 witness. -/
def c8Cats : List Cat := [⟨0⟩, ⟨1⟩, ⟨2⟩, ⟨3⟩]

/-- Concrete random source for the C8 witness (identity shuffles, constant
draws). -/
def c8Rand : GenRand :=
  { shuffled := allBoxesFor c8Cats
    preMatchPicks := fun _ => 0
    sortBools := fun _ => false
    shuffleStack := fun _ st => st
    monoPicks := fun _ => (0, 0)
    breakCoin := fun _ _ => false
    breakPicks := fun _ _ => (0, 0) }

/-! With the program fully embedded above, the development now turns to
the theorems that settle each claim, together with their supporting
lemmas, witnesses and counterexamples. -/

theorem countCat_append (c : Nat) (l1 l2 : List CatBox) :
    countCat c (l1 ++ l2) = countCat c l1 + countCat c l2 :=
  List.countP_append ..

/-- Moves are unchanged by the animation body. -/
theorem applyAnimation_moves (s : GameState) (a b : Nat) :
    (applyAnimation s a b).moves = s.moves := rfl

/-- Move counter is unchanged by the animation body. -/
theorem applyAnimation_moveCount (s : GameState) (a b : Nat) :
    (applyAnimation s a b).moveCount = s.moveCount := rfl

/-- C4: with a pending selection fromIdx, a click on toIdx distinct from
fromIdx and a non-empty source, the move is accepted (the history grows)
iff the legality predicate holds: the destination has room for the matching
top group and is empty or matches its cat; on every rejected attempt the
whole state is left unchanged except that the pending selection is
cleared. -/
theorem tryMove_iff_legal (s : GameState) (fromIdx toIdx : Nat)
    (hc : s.isComplete = false) (hl : s.isLost = false)
    (hsel : s.selectedStackIndex = some fromIdx)
    (hne : fromIdx ≠ toIdx)
    (_hsrc : s.boardStacks.getD fromIdx [] ≠ []) :
    ((handleStackClick s toIdx).moves ≠ s.moves ↔
      legalMove s.boardStacks fromIdx toIdx) ∧
    (¬ legalMove s.boardStacks fromIdx toIdx →
      handleStackClick s toIdx = { s with selectedStackIndex := none }) := by
  have hguard : (s.isComplete || s.isLost) = false := by rw [hc, hl]; rfl
  by_cases hcap : (s.boardStacks.getD toIdx []).length +
      (getMatchingTopBoxes (s.boardStacks.getD fromIdx [])).length ≤ MAX_STACK_SIZE
  · by_cases hmis : 0 < (s.boardStacks.getD toIdx []).length ∧
        ((s.boardStacks.getD toIdx []).getD 0 default).cat.id ≠
          ((getMatchingTopBoxes (s.boardStacks.getD fromIdx [])).getD 0 default).cat.id
    · -- kind mismatch: rejected
      have hnl : ¬ legalMove s.boardStacks fromIdx toIdx := by
        intro hlg
        rcases hlg with ⟨-, hdisj⟩
        rcases hdisj with hemp | heq
        · rw [hemp] at hmis; exact absurd hmis.1 (by simp)
        · exact hmis.2 heq
      constructor
      · simp only [handleStackClick, hguard, hsel, Bool.false_eq_true, if_false]
        simp only [hne, if_false, if_pos hcap, if_pos hmis]
        simp [hnl]
      · intro _
        simp only [handleStackClick, hguard, hsel, Bool.false_eq_true, if_false]
        simp only [hne, if_false, if_pos hcap, if_pos hmis]
    · -- accepted
      have hlg : legalMove s.boardStacks fromIdx toIdx := by
        refine ⟨hcap, ?_⟩
        rcases Decidable.not_and_iff_or_not.mp hmis with h0 | h0
        · left
          simpa using List.eq_nil_of_length_eq_zero (Nat.eq_zero_of_not_pos h0)
        · right; exact Decidable.not_not.mp h0
      constructor
      · simp only [handleStackClick, hguard, hsel, Bool.false_eq_true, if_false]
        simp only [hne, if_false, if_pos hcap, if_neg hmis]
        simp only [applyAnimation_moves]
        constructor
        · intro _; exact hlg
        · intro _ h
          have := congrArg List.length h
          simp at this
      · intro hnl; exact absurd hlg hnl
  · -- capacity exceeded: rejected
    have hnl : ¬ legalMove s.boardStacks fromIdx toIdx := fun hlg => hcap hlg.1
    constructor
    · simp only [handleStackClick, hguard, hsel, Bool.false_eq_true, if_false]
      simp only [hne, if_false, if_neg hcap]
      simp [hnl]
    · intro _
      simp only [handleStackClick, hguard, hsel, Bool.false_eq_true, if_false]
      simp only [hne, if_false, if_neg hcap]

theorem getD_set_self {α : Type} (l : List α) (i : Nat) (a d : α)
    (h : i < l.length) : (l.set i a).getD i d = a := by
  simp [List.getD_eq_getElem?_getD, List.getElem?_set, h]

theorem getD_set_ne {α : Type} (l : List α) (i j : Nat) (a d : α)
    (h : i ≠ j) : (l.set i a).getD j d = l.getD j d := by
  simp [List.getD_eq_getElem?_getD, List.getElem?_set, h]

/-- C5: an accepted move removes the matching top group from the top of the
source stack, prepends it (order preserved) to the top of the destination,
leaves every other stack unchanged, appends the record
(fromIdx, toIdx, group.length) to the history — reporting
movedCount = group.length — and increments the move counter by one. -/
theorem tryMove_success_semantics (s : GameState) (fromIdx toIdx : Nat)
    (hc : s.isComplete = false) (hl : s.isLost = false)
    (hsel : s.selectedStackIndex = some fromIdx)
    (hne : fromIdx ≠ toIdx)
    (hfrom : fromIdx < s.boardStacks.length)
    (hto : toIdx < s.boardStacks.length)
    (hlg : legalMove s.boardStacks fromIdx toIdx) :
    (handleStackClick s toIdx).boardStacks.getD toIdx [] =
      getMatchingTopBoxes (s.boardStacks.getD fromIdx []) ++
        s.boardStacks.getD toIdx [] ∧
    (handleStackClick s toIdx).boardStacks.getD fromIdx [] =
      (s.boardStacks.getD fromIdx []).drop
        (getMatchingTopBoxes (s.boardStacks.getD fromIdx [])).length ∧
    (∀ k, k ≠ fromIdx → k ≠ toIdx →
      (handleStackClick s toIdx).boardStacks.getD k [] =
        s.boardStacks.getD k []) ∧
    (handleStackClick s toIdx).moves = s.moves ++
      [⟨fromIdx, toIdx,
        (getMatchingTopBoxes (s.boardStacks.getD fromIdx [])).length⟩] ∧
    (handleStackClick s toIdx).moveCount = s.moveCount + 1 := by
  have hguard : (s.isComplete || s.isLost) = false := by rw [hc, hl]; rfl
  have hcap := hlg.1
  have hmis : ¬ (0 < (s.boardStacks.getD toIdx []).length ∧
      ((s.boardStacks.getD toIdx []).getD 0 default).cat.id ≠
        ((getMatchingTopBoxes (s.boardStacks.getD fromIdx [])).getD 0
          default).cat.id) := by
    rcases hlg.2 with hemp | heq
    · rw [hemp]; simp
    · intro hx; exact hx.2 heq
  have hstep : handleStackClick s toIdx =
      applyAnimation
        { s with
          moveCount := s.moveCount + 1
          moves := s.moves ++
            [⟨fromIdx, toIdx,
              (getMatchingTopBoxes (s.boardStacks.getD fromIdx [])).length⟩]
          selectedStackIndex := none } fromIdx toIdx := by
    simp only [handleStackClick, hguard, hsel, Bool.false_eq_true, if_false]
    simp only [hne, if_false, if_pos hcap, if_neg hmis]
  rw [hstep]
  simp only [applyAnimation]
  have hlen1 : (s.boardStacks.set fromIdx
      ((s.boardStacks.getD fromIdx []).drop
        (getMatchingTopBoxes (s.boardStacks.getD fromIdx [])).length)).length =
      s.boardStacks.length := List.length_set ..
  refine ⟨?_, ?_, ?_, by trivial, by trivial⟩
  · rw [getD_set_self _ _ _ _ (by rw [hlen1]; exact hto),
      getD_set_ne _ _ _ _ _ hne]
  · rw [getD_set_ne _ _ _ _ _ (Ne.symm hne),
      getD_set_self _ _ _ _ (by exact hfrom)]
  · intro k hkf hkt
    rw [getD_set_ne _ _ _ _ _ (Ne.symm hkt), getD_set_ne _ _ _ _ _ (Ne.symm hkf)]

/-- Witness for C4 at a concrete input: moving the group [X0, X1] onto the
empty stack 2. -/
theorem tryMove_iff_legal_witness :
    ((handleStackClick c4State 2).moves ≠ c4State.moves ↔
      legalMove c4State.boardStacks 0 2) ∧
    (¬ legalMove c4State.boardStacks 0 2 →
      handleStackClick c4State 2 = { c4State with selectedStackIndex := none }) :=
  tryMove_iff_legal c4State 0 2 rfl rfl rfl (by decide) (by decide)

/-- Witness for C5 at a concrete input: the 2-box group [X0, X1] moved onto
the empty stack 2 lands there in order, the source shrinks by 2, the
history records movedCount 2 and the counter becomes 1. -/
theorem tryMove_success_semantics_witness :
    (handleStackClick c5State 2).boardStacks.getD 2 [] =
      getMatchingTopBoxes (c5State.boardStacks.getD 0 []) ++
        c5State.boardStacks.getD 2 [] ∧
    (handleStackClick c5State 2).boardStacks.getD 0 [] =
      (c5State.boardStacks.getD 0 []).drop
        (getMatchingTopBoxes (c5State.boardStacks.getD 0 [])).length ∧
    (∀ k, k ≠ 0 → k ≠ 2 →
      (handleStackClick c5State 2).boardStacks.getD k [] =
        c5State.boardStacks.getD k []) ∧
    (handleStackClick c5State 2).moves = c5State.moves ++
      [⟨0, 2, (getMatchingTopBoxes (c5State.boardStacks.getD 0 [])).length⟩] ∧
    (handleStackClick c5State 2).moveCount = c5State.moveCount + 1 :=
  tryMove_success_semantics c5State 0 2 rfl rfl rfl (by decide) (by decide)
    (by decide) (by decide)

/-- C1 (bug evaluation): on the board [[X0, Y0], [X1, X2]], selecting stack
0 and clicking stack 1 is a legal move of the single box X0 (recorded with
movedCount 1), but the following undo moves the whole matching top group
[X0, X1, X2] of stack 1 back — the setTimeout body recomputes the group
with getMatchingTopBoxes instead of honouring record.count — leaving
[[X0, X1, X2, Y0], []] instead of restoring the prior board. -/
theorem undo_does_not_restore_eval :
    (step (step (initState [[boxX 0, boxY 0], [boxX 1, boxX 2]] [catX, catY])
        (Event.click 0)) (Event.click 1)).moves = [⟨0, 1, 1⟩] ∧
    (step (step (step (initState [[boxX 0, boxY 0], [boxX 1, boxX 2]]
          [catX, catY])
        (Event.click 0)) (Event.click 1)) Event.undo).boardStacks =
      [[boxX 0, boxX 1, boxX 2, boxY 0], []] ∧
    ([[boxX 0, boxX 1, boxX 2, boxY 0], []] : Board) ≠
      [[boxX 0, boxY 0], [boxX 1, boxX 2]] := by decide

/-- C2 (bug evaluation): on the board [[X0, Y0, Y1, Y2], [X1, X2, X3]],
moving X0 onto stack 1 fills it to capacity; the following undo moves the
whole 4-box group [X0, X1, X2, X3] back on top of the 3 remaining boxes of
stack 0, producing a reachable stack of length 7 > MAX_STACK_SIZE. -/
theorem undo_violates_capacity_eval :
    ((step (step (step (initState
          [[boxX 0, boxY 0, boxY 1, boxY 2], [boxX 1, boxX 2, boxX 3]]
          [catX, catY])
        (Event.click 0)) (Event.click 1)) Event.undo).boardStacks.getD 0
      []).length = 7 ∧
    MAX_STACK_SIZE < 7 := by decide

/-- C6: checkForValidMoves returns true whenever some stack is empty, and
otherwise returns true iff some ordered pair of distinct indices with a
non-empty source admits a legal move of the matching top group of the
source onto the destination. -/
theorem hasAnyLegalMove_spec (board : Board) :
    ((∃ st ∈ board, st = []) → checkForValidMoves board = true) ∧
    ((∀ st ∈ board, st ≠ []) →
      (checkForValidMoves board = true ↔
        ∃ fromIdx toIdx, fromIdx < board.length ∧ toIdx < board.length ∧
          fromIdx ≠ toIdx ∧ board.getD fromIdx [] ≠ [] ∧
          legalMove board fromIdx toIdx)) := by
  constructor
  · rintro ⟨st, hm, he⟩
    have : (board.any fun stack => stack.isEmpty) = true :=
      List.any_eq_true.mpr ⟨st, hm, by simp [he]⟩
    simp only [checkForValidMoves, this, if_true]
  · intro hne
    have hempty : (board.any fun stack => stack.isEmpty) = false := by
      rw [List.any_eq_false]
      intro st hst
      simpa using hne st hst
    simp only [checkForValidMoves, hempty, Bool.false_eq_true, if_false,
      List.any_eq_true, List.mem_range]
    constructor
    · rintro ⟨fromIdx, hf, hbody⟩
      split at hbody
      · exact absurd hbody (by simp)
      · rename_i hsrcEmpty
        rcases List.any_eq_true.mp hbody with ⟨toIdx, htomem, hinner⟩
        rw [List.mem_range] at htomem
        refine ⟨fromIdx, toIdx, hf, htomem, ?_⟩
        split at hinner
        · exact absurd hinner (by simp)
        · rename_i hneq
          refine ⟨hneq, ?_, ?_⟩
          · intro hx
            rw [hx] at hsrcEmpty
            simp at hsrcEmpty
          · split at hinner
            · rename_i hcap
              refine ⟨hcap, ?_⟩
              split at hinner
              · rename_i hdestEmpty
                left
                exact List.isEmpty_iff.mp hdestEmpty
              · right
                split at hinner
                · rename_i d dtail mb mbtail hdest hmb
                  rw [hdest, hmb]
                  simpa using hinner
                · exact absurd hinner (by simp)
            · exact absurd hinner (by simp)
    · rintro ⟨fromIdx, toIdx, hf, ht, hneq, hsrc, hcap, hdisj⟩
      have hsrcEmptyF : (board.getD fromIdx []).isEmpty = false := by
        simpa [List.isEmpty_iff] using hsrc
      refine ⟨fromIdx, hf, ?_⟩
      rw [if_neg (by rw [hsrcEmptyF]; simp)]
      refine List.any_eq_true.mpr ⟨toIdx, List.mem_range.mpr ht, ?_⟩
      rw [if_neg hneq, if_pos hcap]
      rcases hdisj with hdest | heq
      · rw [if_pos (by rw [hdest]; rfl)]
      · by_cases hdestEmpty : (board.getD toIdx []).isEmpty = true
        · rw [if_pos hdestEmpty]
        · rw [if_neg hdestEmpty]
          cases hdest : board.getD toIdx [] with
          | nil => rw [hdest] at hdestEmpty; simp at hdestEmpty
          | cons d dtail =>
            cases hmb : getMatchingTopBoxes (board.getD fromIdx []) with
            | nil =>
              cases hs : board.getD fromIdx [] with
              | nil => exact absurd hs hsrc
              | cons a atail => rw [hs] at hmb; simp [getMatchingTopBoxes] at hmb
            | cons mb mbtail =>
              rw [hdest, hmb] at heq
              simp only [List.getD_cons_zero] at heq
              simp [heq]

/-- Witness for C6 at the concrete board [[X0], [Y0]]: no stack is empty,
and the evaluator agrees with the existence of a legal ordered pair (here
both sides are false: each single box fits on the other stack but the cats
mismatch). -/
theorem hasAnyLegalMove_spec_witness :
    checkForValidMoves [[boxX 0], [boxY 0]] = true ↔
      ∃ fromIdx toIdx,
        fromIdx < ([[boxX 0], [boxY 0]] : Board).length ∧
        toIdx < ([[boxX 0], [boxY 0]] : Board).length ∧
        fromIdx ≠ toIdx ∧ ([[boxX 0], [boxY 0]] : Board).getD fromIdx [] ≠ [] ∧
        legalMove [[boxX 0], [boxY 0]] fromIdx toIdx :=
  (hasAnyLegalMove_spec [[boxX 0], [boxY 0]]).2 (by decide)

/-- C10: the move counter mirrors the history.  After initialization the
counter is 0 with empty history; every session step preserves
counter = history length (and hence keeps the counter non-negative); and
an acting undo decrements the counter by exactly one. -/
theorem moveCount_matches_history :
    (∀ b cats, (initState b cats).moveCount = 0 ∧ (initState b cats).moves = []) ∧
    (∀ s e, s.moveCount = (s.moves.length : Int) →
      (step s e).moveCount = ((step s e).moves.length : Int) ∧
        0 ≤ (step s e).moveCount) ∧
    (∀ s, s.moves ≠ [] → s.isComplete = false →
      (undoMove s).moveCount = s.moveCount - 1) := by
  have key : ∀ s e, s.moveCount = (s.moves.length : Int) →
      (step s e).moveCount = ((step s e).moves.length : Int) := by
    intro s e h
    cases e with
    | click i =>
      simp only [step, handleStackClick]
      split
      · exact h
      · split
        · split
          · exact h
          · exact h
        · split
          · exact h
          · split
            · split
              · exact h
              · simp only [applyAnimation_moves, applyAnimation_moveCount,
                  List.length_append, List.length_cons, List.length_nil, h]
                push_cast
                ring
            · exact h
    | undo =>
      simp only [step, undoMove]
      split
      · exact h
      · rename_i lastMove hl
        split
        · exact h
        · have hne : s.moves ≠ [] := by
            intro he; rw [he] at hl; simp at hl
          have hpos : 0 < s.moves.length := List.length_pos.mpr hne
          simp only [applyAnimation_moves, applyAnimation_moveCount,
            List.length_dropLast]
          omega
  refine ⟨fun b cats => ⟨rfl, rfl⟩, fun s e h => ⟨key s e h, ?_⟩,
    fun s hne hc => ?_⟩
  · rw [key s e h]
    exact Int.natCast_nonneg _
  · simp only [undoMove]
    split
    · rename_i hl
      exact absurd (List.getLast?_eq_none_iff.mp hl) hne
    · rw [if_neg (by rw [hc]; simp)]
      rfl

/-- Witness for C10 at a concrete input: a click step keeps
counter = history length, and an undo decrements the counter by one. -/
theorem moveCount_matches_history_witness :
    ((step c10State (Event.click 2)).moveCount =
      ((step c10State (Event.click 2)).moves.length : Int) ∧
      0 ≤ (step c10State (Event.click 2)).moveCount) ∧
    (undoMove c10State).moveCount = c10State.moveCount - 1 :=
  ⟨moveCount_matches_history.2.1 c10State (Event.click 2) (by decide),
    moveCount_matches_history.2.2 c10State (by decide) (by decide)⟩

/-- Case analysis of a click: either it leaves the completion flag and the
notification count untouched (guard, selection and rejection branches), or
it performed a move and the notification fired exactly when the resulting
completion flag is true. -/
theorem handleStackClick_notified_cases (s : GameState) (i : Nat) :
    ((handleStackClick s i).isComplete = s.isComplete ∧
      (handleStackClick s i).notified = s.notified) ∨
    ((handleStackClick s i).notified = s.notified +
      (if (handleStackClick s i).isComplete = true then 1 else 0)) := by
  simp only [handleStackClick]
  split
  · exact Or.inl ⟨rfl, rfl⟩
  · split
    · split
      · exact Or.inl ⟨rfl, rfl⟩
      · exact Or.inl ⟨rfl, rfl⟩
    · split
      · exact Or.inl ⟨rfl, rfl⟩
      · split
        · split
          · exact Or.inl ⟨rfl, rfl⟩
          · exact Or.inr rfl
        · exact Or.inl ⟨rfl, rfl⟩

/-- Case analysis of undo: either it is a no-op, or it moved boxes back and
the notification fired exactly when the resulting completion flag is
true. -/
theorem undoMove_notified_cases (s : GameState) :
    (undoMove s = s) ∨
    ((undoMove s).notified = s.notified +
      (if (undoMove s).isComplete = true then 1 else 0)) := by
  simp only [undoMove]
  split
  · exact Or.inl rfl
  · split
    · exact Or.inl rfl
    · exact Or.inr rfl

/-- C9 (amended behaviour): once the session is complete every further
click or undo leaves the state untouched — completion is never re-evaluated
and the notification count is frozen — and every step that transitions the
session from not complete to complete fires the onComplete notification
exactly once. -/
theorem notification_once_per_transition :
    (∀ s e, s.isComplete = true → step s e = s) ∧
    (∀ s e, s.isComplete = false → (step s e).isComplete = true →
      (step s e).notified = s.notified + 1) := by
  constructor
  · intro s e h
    cases e with
    | click i => simp [step, handleStackClick, h]
    | undo =>
      simp only [step, undoMove]
      split
      · rfl
      · rw [if_pos h]
  · intro s e h1 h2
    cases e with
    | click i =>
      simp only [step] at h2 ⊢
      rcases handleStackClick_notified_cases s i with ⟨hC, -⟩ | hN
      · rw [hC, h1] at h2
        exact absurd h2 (by simp)
      · rw [hN, h2]
        simp
    | undo =>
      simp only [step] at h2 ⊢
      rcases undoMove_notified_cases s with hEq | hN
      · rw [hEq, h1] at h2
        exact absurd h2 (by simp)
      · rw [hN, h2]
        simp

/-- A single iteration of the eachStackValid check is the single-kind
property of that stack. -/
theorem stackValid_iff (st : Stack) :
    (match st with
      | [] => true
      | b :: _ => st.all fun box => box.cat.id == b.cat.id) = true ↔
    (∀ b1 ∈ st, ∀ b2 ∈ st, b1.cat.id = b2.cat.id) := by
  cases st with
  | nil => simp
  | cons b tail =>
    simp only [List.all_eq_true, beq_iff_eq]
    constructor
    · intro h b1 hb1 b2 hb2
      rw [h b1 hb1, h b2 hb2]
    · intro h box hbox
      exact h box hbox b (by simp)

/-- The first check of checkCompletion (CatSort.tsx:344-350) holds iff
every stack is single-kind. -/
theorem eachStackValid_iff (stks : Board) :
    (stks.all fun stack =>
      match stack with
      | [] => true
      | b :: _ => stack.all fun box => box.cat.id == b.cat.id) = true ↔
    (∀ st ∈ stks, ∀ b1 ∈ st, ∀ b2 ∈ st, b1.cat.id = b2.cat.id) := by
  rw [List.all_eq_true]
  exact ⟨fun h st hst => (stackValid_iff st).mp (h st hst),
    fun h st hst => (stackValid_iff st).mpr (h st hst)⟩

/-- Characterization of the catMap fold at a key present in the map. -/
theorem foldl_updateCatMap (stks : Board) :
    ∀ (m : Nat → Option Int) (c : Nat) (v : Int), m c = some v →
      (stks.foldl updateCatMap m) c = some (catFold v (occLens c stks)) := by
  induction stks with
  | nil => intro m c v h; simpa [catFold, occLens] using h
  | cons st rest ih =>
    intro m c v h
    rw [List.foldl_cons]
    cases st with
    | nil =>
      have hupd : updateCatMap m [] = m := rfl
      rw [hupd]
      simpa [occLens] using ih m c v h
    | cons b tail =>
      simp only [occLens]
      by_cases hbc : b.cat.id = c
      · rw [if_pos hbc]
        have hmb : m b.cat.id = some v := by rw [hbc]; exact h
        have hupd : updateCatMap m (b :: tail) c =
            some (if v = (MAX_STACK_SIZE : Int) then -1
              else (((b :: tail).length : Nat) : Int)) := by
          simp [updateCatMap, hmb, hbc, h]
        rw [catFold]
        exact ih _ c _ hupd
      · rw [if_neg hbc]
        cases hmb : m b.cat.id with
        | none =>
          have hupd : updateCatMap m (b :: tail) = m := by
            simp [updateCatMap, hmb]
          rw [hupd]
          exact ih m c v h
        | some w =>
          have hupd : updateCatMap m (b :: tail) c = some v := by
            simp only [updateCatMap, hmb]
            rw [if_neg fun hx => hbc hx.symm]
            exact h
          exact ih _ c v hupd

/-- Under the single-kind property, the lengths recorded by occLens sum to
the total number of boxes of that cat on the board. -/
theorem occLens_sum (c : Nat) (stks : Board)
    (hs : ∀ st ∈ stks, ∀ b1 ∈ st, ∀ b2 ∈ st, b1.cat.id = b2.cat.id) :
    (occLens c stks).sum = countCat c stks.flatten := by
  induction stks with
  | nil => rfl
  | cons st rest ih =>
    have hrest := ih fun st2 h2 => hs st2 (List.mem_cons_of_mem _ h2)
    have hself := hs st (List.mem_cons_self ..)
    rw [List.flatten_cons]
    cases st with
    | nil => simpa [occLens, countCat] using hrest
    | cons b tail =>
      simp only [occLens]
      by_cases hbc : b.cat.id = c
      · rw [if_pos hbc]
        have hall : countCat c (b :: tail) = (b :: tail).length := by
          rw [countCat, List.countP_eq_length]
          intro x hx
          simpa using (hself x hx b (by simp)).trans hbc
        rw [List.sum_cons, hrest, countCat_append, hall]
      · rw [if_neg hbc]
        have hzero : countCat c (b :: tail) = 0 := by
          rw [countCat, List.countP_eq_zero]
          intro x hx
          simpa using fun he => hbc ((hself x hx b (by simp)).symm.trans he)
        rw [hrest, countCat_append, hzero]
        omega

/-- Under the single-kind property, the stacks holding MAX_STACK_SIZE
boxes of cat c are exactly the occLens entries equal to MAX_STACK_SIZE. -/
theorem occLens_countP (c : Nat) (stks : Board)
    (hs : ∀ st ∈ stks, ∀ b1 ∈ st, ∀ b2 ∈ st, b1.cat.id = b2.cat.id) :
    (stks.countP fun st => countCat c st == MAX_STACK_SIZE) =
      (occLens c stks).countP fun l => l == MAX_STACK_SIZE := by
  induction stks with
  | nil => rfl
  | cons st rest ih =>
    have hrest := ih fun st2 h2 => hs st2 (List.mem_cons_of_mem _ h2)
    have hself := hs st (List.mem_cons_self ..)
    rw [List.countP_cons]
    cases st with
    | nil =>
      have h0 : (countCat c ([] : Stack) == MAX_STACK_SIZE) = false := rfl
      simp only [h0, occLens, Bool.false_eq_true, if_false, Nat.add_zero]
      exact hrest
    | cons b tail =>
      simp only [occLens]
      by_cases hbc : b.cat.id = c
      · have hall : countCat c (b :: tail) = (b :: tail).length := by
          rw [countCat, List.countP_eq_length]
          intro x hx
          simpa using (hself x hx b (by simp)).trans hbc
        rw [if_pos hbc, List.countP_cons, hall, hrest]
      · have hzero : countCat c (b :: tail) = 0 := by
          rw [countCat, List.countP_eq_zero]
          intro x hx
          simpa using fun he => hbc ((hself x hx b (by simp)).symm.trans he)
        rw [if_neg hbc, hzero, hrest]
        simp [MAX_STACK_SIZE]

/-- Every occLens entry is positive (recorded stacks are non-empty). -/
theorem occLens_pos (c : Nat) (stks : Board) :
    ∀ l ∈ occLens c stks, 0 < l := by
  induction stks with
  | nil => intro l hl; simp [occLens] at hl
  | cons st rest ih =>
    intro l hl
    cases st with
    | nil => exact ih l (by simpa [occLens] using hl)
    | cons b tail =>
      simp only [occLens] at hl
      by_cases hbc : b.cat.id = c
      · rw [if_pos hbc] at hl
        rcases List.mem_cons.mp hl with h | h
        · simp [h]
        · exact ih l h
      · rw [if_neg hbc] at hl
        exact ih l hl

/-- When no entry equals MAX_STACK_SIZE, the catMap fold lands on some
entry of the list. -/
theorem catFold_mem (ls : List Nat) :
    ∀ v : Int, ls ≠ [] → v ≠ (MAX_STACK_SIZE : Int) →
      (∀ x ∈ ls, (x : Int) ≠ (MAX_STACK_SIZE : Int)) →
      ∃ x ∈ ls, catFold v ls = (x : Int) := by
  induction ls with
  | nil => intro v h; exact absurd rfl h
  | cons l ls2 ih =>
    intro v _ hv hall
    rw [catFold, if_neg hv]
    cases ls2 with
    | nil => exact ⟨l, by simp, rfl⟩
    | cons y t =>
      rcases ih (l : Int) (by simp) (hall l (by simp))
          (fun x hx => hall x (List.mem_cons_of_mem _ hx)) with ⟨x, hx, he⟩
      exact ⟨x, List.mem_cons_of_mem _ hx, he⟩

/-- Arithmetic core: for a list of positive entries summing to
MAX_STACK_SIZE, the catMap fold yields MAX_STACK_SIZE exactly when the
list is the singleton [MAX_STACK_SIZE]. -/
theorem catFold_eq_max_iff (ls : List Nat) (hpos : ∀ l ∈ ls, 0 < l)
    (hsum : ls.sum = MAX_STACK_SIZE) :
    catFold 0 ls = (MAX_STACK_SIZE : Int) ↔ ls = [MAX_STACK_SIZE] := by
  cases ls with
  | nil => simp [catFold, MAX_STACK_SIZE]
  | cons l1 ls2 =>
    cases ls2 with
    | nil =>
      have hl : l1 = 4 := by simpa [MAX_STACK_SIZE] using hsum
      subst hl
      decide
    | cons l2 t =>
      constructor
      · intro h
        exfalso
        have h1 := hpos l1 (by simp)
        have h2 := hpos l2 (by simp)
        have hsum2 : l1 + (l2 + t.sum) = 4 := by
          simpa [MAX_STACK_SIZE, List.sum_cons] using hsum
        have htail : ∀ x ∈ l2 :: t, (x : Int) ≠ (MAX_STACK_SIZE : Int) := by
          intro x hx
          have hle : x ≤ (l2 :: t).sum :=
            List.single_le_sum (fun y _ => Nat.zero_le y) x hx
          rw [List.sum_cons] at hle
          have hx3 : x ≤ 3 := by omega
          have h4 : (MAX_STACK_SIZE : Int) = 4 := rfl
          rw [h4]
          omega
        rw [catFold, if_neg (by norm_num [MAX_STACK_SIZE])] at h
        have hl1ne : ((l1 : Nat) : Int) ≠ (MAX_STACK_SIZE : Int) := by
          have hl1 : l1 ≤ 3 := by omega
          have h4 : (MAX_STACK_SIZE : Int) = 4 := rfl
          rw [h4]
          omega
        rcases catFold_mem (l2 :: t) (l1 : Int) (by simp) hl1ne htail with
          ⟨x, hx, he⟩
        rw [he] at h
        exact htail x hx h
      · intro h
        simp at h

/-- countP equal to one is the existence of a unique index satisfying the
predicate. -/
theorem countP_eq_one_iff {α : Type} (d : α) (q : α → Bool) (l : List α) :
    l.countP q = 1 ↔
      ∃ i, i < l.length ∧ q (l.getD i d) = true ∧
        ∀ j, j < l.length → q (l.getD j d) = true → j = i := by
  induction l with
  | nil => simp
  | cons a t ih =>
    rw [List.countP_cons]
    by_cases hqa : q a = true
    · rw [hqa, if_pos rfl]
      constructor
      · intro h
        have ht : t.countP q = 0 := by omega
        refine ⟨0, Nat.succ_pos _, by simpa using hqa, ?_⟩
        intro j hj hq
        cases j with
        | zero => rfl
        | succ k =>
          exfalso
          have hk : k < t.length := Nat.lt_of_succ_lt_succ hj
          have hmem : t.getD k d ∈ t := by
            rw [List.getD_eq_getElem t d hk]
            exact List.getElem_mem hk
          rw [List.getD_cons_succ] at hq
          exact List.countP_eq_zero.mp ht _ hmem hq
      · rintro ⟨i, hi, hqi, huniq⟩
        have ht : t.countP q = 0 := by
          rw [List.countP_eq_zero]
          intro x hx hqx
          rcases List.mem_iff_getElem.mp hx with ⟨k, hk, hke⟩
          have h0 : (0 : Nat) = i := huniq 0 (Nat.succ_pos _) (by simpa using hqa)
          have hk1 : k + 1 = i := by
            refine huniq (k + 1) (Nat.succ_lt_succ hk) ?_
            rw [List.getD_cons_succ, List.getD_eq_getElem t d hk, hke]
            exact hqx
          omega
        omega
    · rw [Bool.not_eq_true] at hqa
      rw [hqa]
      simp only [Bool.false_eq_true, if_false, Nat.add_zero]
      rw [ih]
      constructor
      · rintro ⟨i, hi, hqi, huniq⟩
        refine ⟨i + 1, Nat.succ_lt_succ hi,
          by simpa [List.getD_cons_succ] using hqi, ?_⟩
        intro j hj hqj
        cases j with
        | zero =>
          rw [List.getD_cons_zero, hqa] at hqj
          exact absurd hqj (by simp)
        | succ k =>
          rw [List.getD_cons_succ] at hqj
          have := huniq k (Nat.lt_of_succ_lt_succ hj) hqj
          omega
      · rintro ⟨i, hi, hqi, huniq⟩
        cases i with
        | zero =>
          rw [List.getD_cons_zero, hqa] at hqi
          exact absurd hqi (by simp)
        | succ k =>
          rw [List.getD_cons_succ] at hqi
          refine ⟨k, Nat.lt_of_succ_lt_succ hi, hqi, ?_⟩
          intro j hj hqj
          have := huniq (j + 1) (Nat.succ_lt_succ hj)
            (by simpa [List.getD_cons_succ] using hqj)
          omega

/-- Two entries at distinct indices are bounded by the sum. -/
theorem two_getD_le_sum (ls : List Nat) :
    ∀ i j, i < ls.length → j < ls.length → i ≠ j →
      ls.getD i 0 + ls.getD j 0 ≤ ls.sum := by
  induction ls with
  | nil => intro i j hi; simp at hi
  | cons a t ih =>
    intro i j hi hj hne
    rw [List.sum_cons]
    cases i with
    | zero =>
      cases j with
      | zero => exact absurd rfl hne
      | succ k =>
        rw [List.getD_cons_zero, List.getD_cons_succ]
        have hk : k < t.length := Nat.lt_of_succ_lt_succ hj
        have hmem : t.getD k 0 ∈ t := by
          rw [List.getD_eq_getElem t 0 hk]
          exact List.getElem_mem hk
        have := List.single_le_sum (fun y _ => Nat.zero_le y) _ hmem
        omega
    | succ k =>
      cases j with
      | zero =>
        rw [List.getD_cons_zero, List.getD_cons_succ]
        have hk : k < t.length := Nat.lt_of_succ_lt_succ hi
        have hmem : t.getD k 0 ∈ t := by
          rw [List.getD_eq_getElem t 0 hk]
          exact List.getElem_mem hk
        have := List.single_le_sum (fun y _ => Nat.zero_le y) _ hmem
        omega
      | succ m =>
        rw [List.getD_cons_succ, List.getD_cons_succ]
        have := ih k m (Nat.lt_of_succ_lt_succ hi) (Nat.lt_of_succ_lt_succ hj)
          (by omega)
        omega

/-- A positive list summing to MAX_STACK_SIZE that contains MAX_STACK_SIZE
is the singleton [MAX_STACK_SIZE]. -/
theorem mem_sum_eq_singleton (ls : List Nat) (hpos : ∀ l ∈ ls, 0 < l)
    (hsum : ls.sum = MAX_STACK_SIZE) (hmem : MAX_STACK_SIZE ∈ ls) :
    ls = [MAX_STACK_SIZE] := by
  have h4 : MAX_STACK_SIZE = 4 := rfl
  cases ls with
  | nil => simp at hmem
  | cons a t =>
    rcases List.mem_cons.mp hmem with ha | ha
    · cases t with
      | nil => rw [← ha]
      | cons b t2 =>
        exfalso
        have hb := hpos b (by simp)
        have hsum2 : a + (b + t2.sum) = 4 := by
          simpa [MAX_STACK_SIZE, List.sum_cons] using hsum
        omega
    · exfalso
      have hle : MAX_STACK_SIZE ≤ t.sum :=
        List.single_le_sum (fun y _ => Nat.zero_le y) _ ha
      have ha2 := hpos a (by simp)
      have hsum2 : a + t.sum = 4 := by
        simpa [MAX_STACK_SIZE, List.sum_cons] using hsum
      omega

theorem getD_map_countCat (c : Nat) (stks : Board) (i : Nat)
    (h : i < stks.length) :
    (stks.map fun st => countCat c st).getD i 0 = countCat c (stks.getD i []) := by
  rw [List.getD_eq_getElem _ _ (by simpa using h), List.getElem_map,
    List.getD_eq_getElem _ _ h]

theorem sum_map_countCat (c : Nat) (stks : Board) :
    (stks.map fun st => countCat c st).sum = countCat c stks.flatten := by
  simp only [countCat]
  rw [List.countP_flatten]

/-- checkCompletion returns false outright when some stack mixes cats. -/
theorem checkCompletion_false_char (activeCats : List Cat) (stks : Board)
    (hE : (stks.all fun stack =>
      match stack with
      | [] => true
      | b :: _ => stack.all fun box => box.cat.id == b.cat.id) = false) :
    checkCompletion activeCats stks = false := by
  simp only [checkCompletion, hE, Bool.not_false, if_true]

/-- When every stack is single-kind, checkCompletion reduces to the catMap
condition for every active cat. -/
theorem checkCompletion_true_char (activeCats : List Cat) (stks : Board)
    (hE : (stks.all fun stack =>
      match stack with
      | [] => true
      | b :: _ => stack.all fun box => box.cat.id == b.cat.id) = true) :
    (checkCompletion activeCats stks = true ↔
      ∀ cat ∈ activeCats,
        (stks.foldl updateCatMap fun c =>
          if activeCats.any fun cat2 => cat2.id == c then some 0 else none)
          cat.id = some (MAX_STACK_SIZE : Int)) := by
  simp only [checkCompletion, hE, Bool.not_true, Bool.false_eq_true, if_false,
    Bool.true_and, List.all_eq_true, beq_iff_eq]

/-- C3: on a board carrying exactly MAX_STACK_SIZE boxes of every cat in
play (the generator invariant), checkCompletion returns true iff every
non-empty stack is single-kind and, for every cat in play, all
MAX_STACK_SIZE boxes of that cat sit together in exactly one stack; in
particular a cat split across two single-kind stacks is not complete. -/
theorem checkCompletion_iff_spec (activeCats : List Cat) (stks : Board)
    (hcount : ∀ cat ∈ activeCats,
      countCat cat.id stks.flatten = MAX_STACK_SIZE) :
    (checkCompletion activeCats stks = true ↔ isCompleteSpec activeCats stks) := by
  cases hE : (stks.all fun stack =>
      match stack with
      | [] => true
      | b :: _ => stack.all fun box => box.cat.id == b.cat.id) with
  | false =>
    rw [checkCompletion_false_char activeCats stks hE]
    constructor
    · intro h; exact absurd h (by simp)
    · intro hspec
      have := (eachStackValid_iff stks).mpr hspec.1
      rw [hE] at this
      exact absurd this (by simp)
  | true =>
    rw [checkCompletion_true_char activeCats stks hE]
    have hsingle := (eachStackValid_iff stks).mp hE
    have hinit : ∀ cat ∈ activeCats,
        (fun c => if activeCats.any fun cat2 => cat2.id == c then some 0
          else none) cat.id = some (0 : Int) := by
      intro cat hcat
      simp only []
      rw [if_pos (List.any_eq_true.mpr ⟨cat, hcat, by simp⟩)]
    constructor
    · intro h
      refine ⟨hsingle, ?_⟩
      intro cat hcat
      have hfold := foldl_updateCatMap stks
        (fun c => if activeCats.any fun cat2 => cat2.id == c then some 0
          else none) cat.id 0 (hinit cat hcat)
      have hb := h cat hcat
      rw [hfold] at hb
      have hcf : catFold 0 (occLens cat.id stks) = (MAX_STACK_SIZE : Int) := by
        simpa using hb
      have hocc : occLens cat.id stks = [MAX_STACK_SIZE] :=
        (catFold_eq_max_iff _ (occLens_pos _ _)
          (by rw [occLens_sum _ _ hsingle]; exact hcount cat hcat)).mp hcf
      have hcp : (stks.countP fun st =>
          countCat cat.id st == MAX_STACK_SIZE) = 1 := by
        rw [occLens_countP _ _ hsingle, hocc]
        decide
      rcases (countP_eq_one_iff [] _ stks).mp hcp with ⟨i, hi, hqi, huniq⟩
      refine ⟨i, hi, by simpa using hqi, ?_⟩
      intro j hj hpos0
      by_contra hji
      have hci : countCat cat.id (stks.getD i []) = MAX_STACK_SIZE := by
        simpa using hqi
      have hle := two_getD_le_sum (stks.map fun st => countCat cat.id st) i j
        (by simpa using hi) (by simpa using hj) (fun he => hji he.symm)
      rw [getD_map_countCat _ _ _ hi, getD_map_countCat _ _ _ hj,
        sum_map_countCat] at hle
      rw [hci, hcount cat hcat] at hle
      have h4 : MAX_STACK_SIZE = 4 := rfl
      omega
    · rintro ⟨hsingle2, hex⟩
      intro cat hcat
      rcases hex cat hcat with ⟨i, hi, hci, huniq⟩
      have hcp : (stks.countP fun st =>
          countCat cat.id st == MAX_STACK_SIZE) = 1 := by
        rw [countP_eq_one_iff ([] : Stack)]
        refine ⟨i, hi, by simpa using hci, ?_⟩
        intro j hj hqj
        refine huniq j hj ?_
        have hj4 : countCat cat.id (stks.getD j []) = MAX_STACK_SIZE := by
          simpa using hqj
        rw [hj4]
        decide
      have hocc1 : ((occLens cat.id stks).countP fun l =>
          l == MAX_STACK_SIZE) = 1 := by
        rw [← occLens_countP _ _ hsingle]
        exact hcp
      have hmem : MAX_STACK_SIZE ∈ occLens cat.id stks := by
        have hlt : 0 < (occLens cat.id stks).countP fun l =>
            l == MAX_STACK_SIZE := by omega
        rcases List.countP_pos_iff.mp hlt with ⟨x, hx, hqx⟩
        have hx4 : x = MAX_STACK_SIZE := by simpa using hqx
        rwa [hx4] at hx
      have hocc : occLens cat.id stks = [MAX_STACK_SIZE] :=
        mem_sum_eq_singleton _ (occLens_pos _ _)
          (by rw [occLens_sum _ _ hsingle]; exact hcount cat hcat) hmem
      rw [foldl_updateCatMap stks
        (fun c => if activeCats.any fun cat2 => cat2.id == c then some 0
          else none) cat.id 0 (hinit cat hcat), hocc]
      decide

/-- Witness for C3 at a concrete input: the sorted two-cat board
[[X0..X3], [Y0..Y3], []]. -/
theorem checkCompletion_iff_spec_witness :
    checkCompletion [catX, catY]
        [[boxX 0, boxX 1, boxX 2, boxX 3], [boxY 0, boxY 1, boxY 2, boxY 3], []] =
        true ↔
      isCompleteSpec [catX, catY]
        [[boxX 0, boxX 1, boxX 2, boxX 3], [boxY 0, boxY 1, boxY 2, boxY 3], []] :=
  checkCompletion_iff_spec [catX, catY]
    [[boxX 0, boxX 1, boxX 2, boxX 3], [boxY 0, boxY 1, boxY 2, boxY 3], []]
    (by decide)

/-- C9 (counterexample): evaluating completion twice on the same
already-complete board fires the notification twice: the second
(re-)evaluation returns true and fires again, because checkCompletion
calls onComplete whenever the flag it just computed is true
(CatSort.tsx:391-393), with no notion of having already fired. -/
theorem completion_notification_refires :
    checkCompletion [catX, catY]
      [[boxX 0, boxX 1, boxX 2, boxX 3], [boxY 0, boxY 1, boxY 2, boxY 3]] =
      true ∧
    completionNotificationCount [catX, catY]
      [[[boxX 0, boxX 1, boxX 2, boxX 3], [boxY 0, boxY 1, boxY 2, boxY 3]],
        [[boxX 0, boxX 1, boxX 2, boxX 3], [boxY 0, boxY 1, boxY 2, boxY 3]]] =
      2 := by decide

/-- Witness for the amended C9 at concrete inputs: a click on a completed
session is a no-op, and a completing move fires exactly one
notification. -/
theorem notification_once_per_transition_witness :
    step c9DoneState (Event.click 0) = c9DoneState ∧
    (step c9TransState (Event.click 1)).notified = c9TransState.notified + 1 :=
  ⟨notification_once_per_transition.1 c9DoneState (Event.click 0) rfl,
    notification_once_per_transition.2 c9TransState (Event.click 1) rfl
      (by decide)⟩

theorem flatten_set_decomp (stks : Board) (i : Nat) (st2 : Stack)
    (h : i < stks.length) :
    (stks.set i st2).flatten =
      (stks.take i).flatten ++ (st2 ++ (stks.drop (i + 1)).flatten) := by
  rw [List.set_eq_take_append_cons_drop, if_pos h]
  simp [List.flatten_append]

theorem flatten_getD_decomp (stks : Board) (i : Nat) (h : i < stks.length) :
    stks.flatten =
      (stks.take i).flatten ++ ((stks.getD i []) ++ (stks.drop (i + 1)).flatten) := by
  conv_lhs => rw [← List.take_append_drop i stks, List.drop_eq_getElem_cons h]
  rw [List.flatten_append, List.flatten_cons, List.getD_eq_getElem _ _ h]

/-- Replacing stack i changes the flatten counts by swapping the
contribution of the old stack for the new one. -/
theorem count_flatten_set (stks : Board) (i : Nat) (st2 : Stack) (x : CatBox)
    (h : i < stks.length) :
    ((stks.set i st2).flatten).count x + (stks.getD i []).count x =
      stks.flatten.count x + st2.count x := by
  rw [flatten_set_decomp stks i st2 h, flatten_getD_decomp stks i h]
  simp [List.count_append]
  omega

theorem set_elem_decomp (st : Stack) (j : Nat) (y : CatBox)
    (h : j < st.length) :
    st.set j y = st.take j ++ y :: st.drop (j + 1) := by
  rw [List.set_eq_take_append_cons_drop, if_pos h]

/-- Replacing the box at one position changes the counts by swapping the
old box for the new one. -/
theorem count_set_elem (st : Stack) (j : Nat) (y x : CatBox)
    (h : j < st.length) :
    (st.set j y).count x + (if st.getD j default = x then 1 else 0) =
      st.count x + (if y = x then 1 else 0) := by
  conv_rhs => rw [← List.take_append_drop j st, List.drop_eq_getElem_cons h]
  rw [set_elem_decomp st j y h, List.getD_eq_getElem _ _ h]
  simp only [List.count_append, List.count_cons]
  by_cases hy : y = x <;> by_cases hx : st[j] = x <;> simp [hy, hx] <;> omega

theorem BoardShape.refl (base : Board) : BoardShape base base :=
  ⟨rfl, fun _ => rfl, List.Perm.refl _⟩

/-- Replacing a stack by a permutation of itself preserves the shape. -/
theorem BoardShape.set_perm {base stks : Board} (h : BoardShape base stks)
    (i : Nat) (st2 : Stack) (hp : st2.Perm (stks.getD i [])) :
    BoardShape base (stks.set i st2) := by
  obtain ⟨hlen, hlens, hperm⟩ := h
  by_cases hi : i < stks.length
  · refine ⟨by rw [List.length_set]; exact hlen, ?_, ?_⟩
    · intro k
      by_cases hk : i = k
      · subst hk
        rw [getD_set_self _ _ _ _ hi, hp.length_eq]
        exact hlens i
      · rw [getD_set_ne _ _ _ _ _ hk]
        exact hlens k
    · refine List.Perm.trans ?_ hperm
      rw [List.perm_iff_count]
      intro x
      have := count_flatten_set stks i st2 x hi
      have hpx : st2.count x = (stks.getD i []).count x :=
        hp.count_eq x
      omega
  · rw [List.set_eq_of_length_le (Nat.le_of_not_lt hi)]
    exact ⟨hlen, hlens, hperm⟩

/-- A well-indexed cross-stack swap preserves the shape. -/
theorem BoardShape.swap {base stks : Board} (h : BoardShape base stks)
    (i j r rb : Nat) (hir : i ≠ r) (hi : i < stks.length)
    (hr : r < stks.length) (hj : j < (stks.getD i []).length)
    (hrb : rb < (stks.getD r []).length) :
    BoardShape base (swapBoxes stks i j r rb) := by
  obtain ⟨hlen, hlens, hperm⟩ := h
  simp only [swapBoxes]
  set a := (stks.getD i []).getD j default with ha
  set b := (stks.getD r []).getD rb default with hb
  set sti2 := (stks.getD i []).set j b with hsti2
  set stks1 := stks.set i sti2 with hstks1
  have hlen1 : stks1.length = stks.length := List.length_set ..
  have hgetr : stks1.getD r [] = stks.getD r [] :=
    getD_set_ne _ _ _ _ _ hir
  have hr1 : r < stks1.length := by rw [hlen1]; exact hr
  refine ⟨?_, ?_, ?_⟩
  · rw [List.length_set, hlen1]; exact hlen
  · intro k
    by_cases hk : r = k
    · subst hk
      rw [getD_set_self _ _ _ _ hr1, hgetr, List.length_set]
      exact hlens r
    · rw [getD_set_ne _ _ _ _ _ hk]
      by_cases hk2 : i = k
      · subst hk2
        rw [getD_set_self _ _ _ _ hi, List.length_set]
        exact hlens i
      · rw [getD_set_ne _ _ _ _ _ hk2]
        exact hlens k
  · refine List.Perm.trans ?_ hperm
    rw [List.perm_iff_count]
    intro x
    rw [hgetr]
    have e1 := count_flatten_set stks1 r ((stks.getD r []).set rb a) x hr1
    rw [hgetr] at e1
    have e2 : (stks1.flatten).count x + (stks.getD i []).count x =
        stks.flatten.count x + sti2.count x :=
      count_flatten_set stks i sti2 x hi
    have e3 : (sti2.count x) + (if a = x then 1 else 0) =
        (stks.getD i []).count x + (if b = x then 1 else 0) := by
      rw [hsti2, ha]
      exact count_set_elem _ _ _ _ hj
    have e4 : ((stks.getD r []).set rb a).count x +
        (if b = x then 1 else 0) =
        (stks.getD r []).count x + (if a = x then 1 else 0) := by
      rw [hb]
      exact count_set_elem _ _ _ _ hrb
    omega

/-- Fold preservation helper. -/
theorem foldl_preserve {α β : Type} (P : β → Prop) (body : β → α → β)
    (l : List α) (init : β) (h : P init)
    (hstep : ∀ acc a, a ∈ l → P acc → P (body acc a)) :
    P (l.foldl body init) := by
  induction l generalizing init with
  | nil => exact h
  | cons a t ih =>
    exact ih _ (hstep init a (by simp) h)
      (fun acc x hx hacc => hstep acc x (by simp [hx]) hacc)

/-- The swap-partner index i + 1 + k (mod f) is in range and differs
from i. -/
theorem shifted_mod (i k f : Nat) (hf : 2 ≤ f) (hi : i < f) (hk : k < f - 1) :
    (i + 1 + k) % f < f ∧ (i + 1 + k) % f ≠ i := by
  refine ⟨Nat.mod_lt _ (by omega), ?_⟩
  rcases Nat.lt_or_ge (i + 1 + k) f with hlt | hge
  · rw [Nat.mod_eq_of_lt hlt]; omega
  · rw [Nat.mod_eq_sub_mod hge, Nat.mod_eq_of_lt (by omega)]; omega

/-- The easy-mode grouping pass preserves the board shape. -/
theorem easyGrouping_shape (filled : Nat) (sb : Nat → Bool)
    (base stks : Board) (h : BoardShape base stks) :
    BoardShape base (easyGrouping filled sb stks) := by
  unfold easyGrouping
  refine foldl_preserve (BoardShape base) _ _ _ h ?_
  intro acc i _ hacc
  split
  · exact hacc.set_perm i _ (List.mergeSort_perm _ _)
  · exact hacc

/-- The anti-monolith pass preserves the board shape when every filled
stack of the base board holds MAX_STACK_SIZE boxes. -/
theorem antiMonolith_shape (filled : Nat) (shuf : Nat → Stack → Stack)
    (mp : Nat → Nat × Nat) (base stks : Board)
    (hf : 2 ≤ filled) (hfb : filled ≤ base.length)
    (hlen4 : ∀ k, k < filled → (base.getD k []).length = MAX_STACK_SIZE)
    (hshuf : ∀ i st, (shuf i st).Perm st)
    (h : BoardShape base stks) :
    BoardShape base (antiMonolith filled shuf mp stks) := by
  unfold antiMonolith
  refine foldl_preserve (BoardShape base) _ _ _ h ?_
  intro acc i hi hacc
  rw [List.mem_range] at hi
  have hacc1 : BoardShape base (acc.set i (shuf i (acc.getD i []))) :=
    hacc.set_perm i _ (hshuf i _)
  simp only []
  split
  · rename_i hcond
    obtain ⟨hpos, -, -⟩ := hcond
    have hi2 : i < (acc.set i (shuf i (acc.getD i []))).length := by
      rw [hacc1.1]; omega
    have hr := shifted_mod i ((mp i).1 % (filled - 1)) filled hf hi
      (Nat.mod_lt _ (by omega))
    have hr2 : (i + 1 + (mp i).1 % (filled - 1)) % filled <
        (acc.set i (shuf i (acc.getD i []))).length := by
      rw [hacc1.1]; omega
    have hrlen : ((acc.set i (shuf i (acc.getD i []))).getD
        ((i + 1 + (mp i).1 % (filled - 1)) % filled) []).length =
        MAX_STACK_SIZE := by
      rw [hacc1.2.1]
      exact hlen4 _ hr.1
    refine hacc1.swap i 0 _ _ (Ne.symm hr.2) hi2 hr2 hpos ?_
    rw [hrlen]
    exact Nat.mod_lt _ (by decide)
  · exact hacc1

/-- The inner breakup loop preserves the board shape. -/
theorem breakupInner_shape (filled i : Nat) (coin : Nat → Nat → Bool)
    (picks : Nat → Nat → Nat × Nat) (base : Board)
    (hf : 2 ≤ filled) (hif : i < filled) (hfb : filled ≤ base.length) :
    ∀ fuel j stks, BoardShape base stks →
      BoardShape base (breakupInner filled i coin picks fuel j stks) := by
  intro fuel
  induction fuel with
  | zero => intro j stks h; exact h
  | succ fuel ih =>
    intro j stks h
    rw [breakupInner]
    split
    · rename_i hj
      apply ih
      simp only []
      split
      · split
        · rename_i hrpos
          have hi2 : i < stks.length := by rw [h.1]; omega
          have hr := shifted_mod i ((picks i j).1 % (filled - 1)) filled hf hif
            (Nat.mod_lt _ (by omega))
          have hr2 : (i + 1 + (picks i j).1 % (filled - 1)) % filled <
              stks.length := by rw [h.1]; omega
          exact h.swap i j _ _ (Ne.symm hr.2) hi2 hr2 hj
            (Nat.mod_lt _ hrpos)
        · exact h
      · exact h
    · exact h

/-- The breakup pass preserves the board shape. -/
theorem breakupStep_shape (filled : Nat) (coin : Nat → Nat → Bool)
    (picks : Nat → Nat → Nat × Nat) (base stks : Board)
    (hf : 2 ≤ filled) (hfb : filled ≤ base.length)
    (h : BoardShape base stks) :
    BoardShape base (breakupStep filled coin picks stks) := by
  unfold breakupStep
  refine foldl_preserve (BoardShape base) _ _ _ h ?_
  intro acc i hi hacc
  rw [List.mem_range] at hi
  exact breakupInner_shape filled i coin picks base hf hi hfb _ _ acc hacc

/-- With no leftover boxes the redistribution loop returns the stacks
unchanged, for every fuel. -/
theorem distributeLeftovers_nil (filled fuel si : Nat) (stks : Board) :
    distributeLeftovers filled fuel [] si stks = some stks := by
  cases fuel with
  | zero => simp [distributeLeftovers]
  | succ n => rfl

/-- An in-bounds window of valid indices collapses to drop and take. -/
theorem chunk_eq (l : List CatBox) :
    ∀ (n base : Nat), base + n ≤ l.length →
      ((List.range n).filterMap fun j => l[base + j]?) =
        (l.drop base).take n := by
  intro n
  induction n with
  | zero => intro base h; simp
  | succ n ih =>
    intro base h
    have hb : base < l.length := by omega
    have h0 : l[base + 0]? = some l[base] := by
      rw [Nat.add_zero]
      exact List.getElem?_eq_getElem hb
    rw [List.range_succ_eq_map, List.filterMap_cons, h0, List.filterMap_map]
    have hfg : ((List.range n).filterMap
          ((fun j => l[base + j]?) ∘ Nat.succ)) =
        (List.range n).filterMap fun j => l[(base + 1) + j]? := by
      apply List.filterMap_congr
      intro x _
      simp only [Function.comp]
      congr 1
      omega
    rw [hfg, ih (base + 1) (by omega), List.drop_eq_getElem_cons hb,
      List.take_succ_cons]

/-- Consecutive equal-width chunks flatten back to the original list. -/
theorem flatten_chunks :
    ∀ (f bps : Nat) (l : List CatBox), l.length = f * bps →
      ((List.range f).map fun i => (l.drop (i * bps)).take bps).flatten = l := by
  intro f
  induction f with
  | zero =>
    intro bps l h
    simp only [Nat.zero_mul] at h
    simp [(List.eq_nil_of_length_eq_zero h)]
  | succ f ih =>
    intro bps l h
    rw [List.range_succ_eq_map, List.map_cons, List.map_map, List.flatten_cons]
    have h1 : (l.drop (0 * bps)).take bps = l.take bps := by
      rw [Nat.zero_mul, List.drop_zero]
    have h2 : (List.range f).map
          ((fun i => (l.drop (i * bps)).take bps) ∘ Nat.succ) =
        (List.range f).map fun i => ((l.drop bps).drop (i * bps)).take bps := by
      apply List.map_congr_left
      intro i _
      simp only [Function.comp]
      rw [List.drop_drop]
      have he : Nat.succ i * bps = bps + i * bps := by
        rw [Nat.succ_mul]; omega
      rw [he]
    rw [h1, h2, ih bps (l.drop bps)
      (by rw [List.length_drop, h, Nat.succ_mul]; omega)]
    exact List.take_append_drop bps l

theorem firstPassStacks_eq (mixed : List CatBox) (f bps : Nat)
    (h : f * bps ≤ mixed.length) :
    firstPassStacks mixed f bps =
      (List.range f).map fun i => (mixed.drop (i * bps)).take bps := by
  unfold firstPassStacks
  apply List.map_congr_left
  intro i hi
  rw [List.mem_range] at hi
  refine chunk_eq mixed bps (i * bps) ?_
  have h2 : (i + 1) * bps ≤ f * bps := Nat.mul_le_mul_right bps (by omega)
  have h3 : i * bps + bps = (i + 1) * bps := by ring
  omega

theorem firstPass_flatten (mixed : List CatBox) (f bps : Nat)
    (h : mixed.length = f * bps) :
    (firstPassStacks mixed f bps).flatten = mixed := by
  rw [firstPassStacks_eq mixed f bps (le_of_eq h.symm),
    flatten_chunks f bps mixed h]

theorem firstPass_length (mixed : List CatBox) (f bps : Nat) :
    (firstPassStacks mixed f bps).length = f := by
  simp [firstPassStacks]

theorem firstPass_stack_lengths (mixed : List CatBox) (f bps : Nat)
    (h : mixed.length = f * bps) :
    ∀ i, i < f → ((firstPassStacks mixed f bps).getD i []).length = bps := by
  intro i hi
  rw [firstPassStacks_eq mixed f bps (le_of_eq h.symm)]
  have hil : i < ((List.range f).map fun i =>
      (mixed.drop (i * bps)).take bps).length := by simp [hi]
  rw [List.getD_eq_getElem _ _ hil, List.getElem_map]
  simp only [List.getElem_range]
  rw [List.length_take, List.length_drop, h]
  have h2 : (i + 1) * bps ≤ f * bps := Nat.mul_le_mul_right bps (by omega)
  have h3 : i * bps + bps = (i + 1) * bps := by ring
  omega

/-- Every generated box carries its cat id in the first component of its
box id, and its cat is one of the available cats. -/
theorem mem_allBoxes (cats : List Cat) :
    ∀ b ∈ allBoxesFor cats, b.id.1 = b.cat.id ∧ b.cat ∈ cats := by
  intro b hb
  simp only [allBoxesFor, List.mem_flatMap, List.mem_map] at hb
  rcases hb with ⟨c, hc, i, -, rfl⟩
  exact ⟨rfl, hc⟩

theorem length_allBoxes (cats : List Cat) :
    (allBoxesFor cats).length = cats.length * MAX_STACK_SIZE := by
  induction cats with
  | nil => rfl
  | cons c rest ih =>
    simp only [allBoxesFor, List.flatMap_cons] at ih ⊢
    rw [List.length_append, ih, List.length_map, List.length_range,
      List.length_cons]
    ring

/-- Distinct cat ids give distinct box ids. -/
theorem nodup_ids_allBoxes (cats : List Cat)
    (h : (cats.map Cat.id).Nodup) :
    ((allBoxesFor cats).map CatBox.id).Nodup := by
  induction cats with
  | nil => simp [allBoxesFor]
  | cons c rest ih =>
    rw [List.map_cons, List.nodup_cons] at h
    simp only [allBoxesFor, List.flatMap_cons, List.map_append]
    rw [List.nodup_append]
    refine ⟨?_, ih h.2, ?_⟩
    · rw [List.map_map]
      refine List.Nodup.map ?_ (List.nodup_range _)
      intro x y hxy
      simpa using hxy
    · intro p hp hp2
      simp only [List.map_map, List.mem_map, Function.comp] at hp
      rcases hp with ⟨i, -, rfl⟩
      simp only [List.mem_map] at hp2
      rcases hp2 with ⟨b, hb, hbid⟩
      have hm := mem_allBoxes rest b hb
      apply h.1
      rw [List.mem_map]
      refine ⟨b.cat, hm.2, ?_⟩
      have hb1 : b.id.1 = c.id := by rw [hbid]
      rw [← hm.1, hb1]

/-- Every available cat has exactly MAX_STACK_SIZE boxes in allBoxes. -/
theorem countCat_allBoxes (cats : List Cat)
    (hnd : (cats.map Cat.id).Nodup) :
    ∀ c ∈ cats, countCat c.id (allBoxesFor cats) = MAX_STACK_SIZE := by
  induction cats with
  | nil => simp
  | cons c0 rest ih =>
    intro c hc
    rw [List.map_cons, List.nodup_cons] at hnd
    have hall : allBoxesFor (c0 :: rest) =
        ((List.range MAX_STACK_SIZE).map fun i =>
          (⟨(c0.id, i), c0⟩ : CatBox)) ++ allBoxesFor rest := by
      simp [allBoxesFor]
    have hblock : ∀ cid, countCat cid ((List.range MAX_STACK_SIZE).map fun i =>
        (⟨(c0.id, i), c0⟩ : CatBox)) =
        if c0.id = cid then MAX_STACK_SIZE else 0 := by
      intro cid
      rw [countCat, List.countP_map]
      by_cases he : c0.id = cid
      · rw [if_pos he]
        have hlen : List.countP
            ((fun b => b.cat.id == cid) ∘ fun i =>
              (⟨(c0.id, i), c0⟩ : CatBox)) (List.range MAX_STACK_SIZE) =
            (List.range MAX_STACK_SIZE).length :=
          List.countP_eq_length.mpr (by intro a _; simp [he])
        rw [hlen, List.length_range]
      · rw [if_neg he]
        refine List.countP_eq_zero.mpr ?_
        intro a _
        simp [he]
    rw [hall, countCat_append]
    rcases List.mem_cons.mp hc with rfl | hc2
    · rw [hblock, if_pos rfl]
      have h0 : countCat c.id (allBoxesFor rest) = 0 := by
        rw [countCat, List.countP_eq_zero]
        intro b hb
        have hm := mem_allBoxes rest b hb
        simp only [beq_iff_eq]
        intro he
        apply hnd.1
        rw [List.mem_map]
        exact ⟨b.cat, hm.2, he⟩
      rw [h0]
      omega
    · rw [hblock]
      have hne : c0.id ≠ c.id := by
        intro he
        exact hnd.1 (he ▸ List.mem_map_of_mem Cat.id hc2)
      rw [if_neg hne, ih hnd.2 c hc2]
      omega

/-- With distinct box ids, erasing by id removes exactly the named box. -/
theorem perm_cons_removeById (l : List CatBox) (b : CatBox)
    (hnd : (l.map CatBox.id).Nodup) (hb : b ∈ l) :
    l.Perm (b :: removeById b.id l) := by
  rcases @List.exists_of_eraseP CatBox (fun x => x.id == b.id) l b hb (by simp)
    with ⟨a, l1, l2, hl1, hpa, hdecomp, herase⟩
  have hnd2 := hnd
  rw [hdecomp, List.map_append, List.map_cons, List.nodup_append] at hnd2
  have ha : a = b := by
    by_contra hab
    have hbmem : b ∈ l1 ++ a :: l2 := by rw [← hdecomp]; exact hb
    rcases List.mem_append.mp hbmem with h1 | h2
    · have := hl1 b h1
      simp at this
    · rcases List.mem_cons.mp h2 with h3 | h4
      · exact hab h3.symm
      · have haid : a.id = b.id := by simpa using hpa
        have : a.id ∈ l2.map CatBox.id := by
          rw [haid, List.mem_map]
          exact ⟨b, h4, rfl⟩
        have hndc := hnd2.2.1
        rw [List.nodup_cons] at hndc
        exact hndc.1 this
  subst ha
  rw [removeById, herase, hdecomp]
  exact List.perm_middle

/-- The erase fold only drops boxes. -/
theorem fold_removeById_sublist :
    ∀ (sel rem : List CatBox),
      (sel.foldl (fun r b => removeById b.id r) rem).Sublist rem := by
  intro sel
  induction sel with
  | nil => intro rem; exact List.Sublist.refl _
  | cons b sel2 ih =>
    intro rem
    rw [List.foldl_cons]
    exact (ih (removeById b.id rem)).trans (List.eraseP_sublist _)

/-- Moving a selected sublist out of remainingBoxes by repeated erase is a
permutation when box ids are distinct. -/
theorem sel_fold_removeById_perm :
    ∀ (sel rem : List CatBox), sel.Sublist rem →
      (rem.map CatBox.id).Nodup →
      rem.Perm (sel ++ sel.foldl (fun r b => removeById b.id r) rem) := by
  intro sel
  induction sel with
  | nil => intro rem _ _; exact List.Perm.refl _
  | cons b sel2 ih =>
    intro rem hsub hnd
    have hb : b ∈ rem := hsub.subset (List.mem_cons_self ..)
    have hperm1 := perm_cons_removeById rem b hnd hb
    rw [List.foldl_cons]
    have hsub1 : sel2.Sublist (removeById b.id rem) := by
      rcases List.cons_sublist_iff.mp hsub with ⟨r1, r2, hre, hbr1, hs2⟩
      have heq : removeById b.id rem =
          (r1.eraseP fun x => x.id == b.id) ++ r2 := by
        rw [removeById, hre]
        refine List.eraseP_append_left ?_ r2 hbr1
        simp
      rw [heq]
      exact hs2.trans (List.sublist_append_right _ _)
    have hnd1 : ((removeById b.id rem).map CatBox.id).Nodup := by
      have hs : (removeById b.id rem).Sublist rem := List.eraseP_sublist _
      exact List.Nodup.sublist (hs.map CatBox.id) hnd
    have hrest := ih (removeById b.id rem) hsub1 hnd1
    refine hperm1.trans ?_
    rw [List.cons_append]
    exact hrest.cons b

/-- The pre-match grouping loop only rearranges the boxes. -/
theorem preMatchLoop_perm (picks : Nat → Nat) :
    ∀ (n i : Nat) (org rem : List CatBox), (rem.map CatBox.id).Nodup →
      ((preMatchLoop picks n i (org, rem)).1 ++
        (preMatchLoop picks n i (org, rem)).2).Perm (org ++ rem) := by
  intro n
  induction n with
  | zero => intro i org rem _; exact List.Perm.refl _
  | succ n ih =>
    intro i org rem hnd
    rw [preMatchLoop]
    split
    · exact List.Perm.refl _
    · simp only []
      set catId := (rem.getD (picks i % rem.length) default).cat.id with hcat
      set sel := (rem.filter fun b => b.cat.id == catId).take
        (min 3 (rem.filter fun b => b.cat.id == catId).length) with hsel
      have hsub : sel.Sublist rem :=
        (List.take_sublist _ _).trans (List.filter_sublist _)
      have hnd1 : ((sel.foldl (fun r b => removeById b.id r) rem).map
          CatBox.id).Nodup :=
        List.Nodup.sublist ((fold_removeById_sublist sel rem).map CatBox.id) hnd
      have hih := ih (i + 1) (org ++ sel)
        (sel.foldl (fun r b => removeById b.id r) rem) hnd1
      refine hih.trans ?_
      rw [List.append_assoc]
      exact List.Perm.append_left org
        (sel_fold_removeById_perm sel rem hsub hnd).symm

/-- mixedBoxes is a permutation of the created boxes whenever the injected
shuffle is. -/
theorem mixedBoxes_perm (d : Difficulty) (picks : Nat → Nat)
    (shuffled : List CatBox) (cats : List Cat)
    (hperm : shuffled.Perm (allBoxesFor cats))
    (hnd : (cats.map Cat.id).Nodup) :
    (mixedBoxes d picks shuffled).Perm (allBoxesFor cats) := by
  have hnds : (shuffled.map CatBox.id).Nodup :=
    ((hperm.map CatBox.id).nodup_iff).mpr (nodup_ids_allBoxes cats hnd)
  have h := preMatchLoop_perm picks (preMatchedPairs d) 0 [] shuffled hnds
  unfold mixedBoxes
  refine List.Perm.trans ?_ hperm
  simpa using h

/-- A board that shares its shape with a base whose stacks are within
capacity, and whose boxes are those created for distinct cats, passes both
post-condition checks. -/
theorem validation_of_shape (cats : List Cat) (w stks : Board)
    (hnd : (cats.map Cat.id).Nodup)
    (hw4 : ∀ k, (w.getD k []).length ≤ MAX_STACK_SIZE)
    (hwflat : w.flatten.Perm (allBoxesFor cats))
    (hsh : BoardShape w stks) :
    oversizedStacks stks = false ∧ tooManyOfOneCat stks = false := by
  constructor
  · rw [oversizedStacks, List.any_eq_false]
    intro st hst
    rcases List.mem_iff_getElem.mp hst with ⟨k, hk, rfl⟩
    have h1 : stks[k] = stks.getD k [] := (List.getD_eq_getElem stks [] hk).symm
    rw [h1, hsh.2.1 k]
    simpa using Nat.not_lt.mpr (hw4 k)
  · rw [tooManyOfOneCat, List.any_eq_false]
    intro b hb
    have hflat : stks.flatten.Perm (allBoxesFor cats) := hsh.2.2.trans hwflat
    have hcount : countCat b.cat.id stks.flatten =
        countCat b.cat.id (allBoxesFor cats) := hflat.countP_eq _
    have hbmem : b ∈ allBoxesFor cats := (hflat.mem_iff).mp hb
    have hbcat := (mem_allBoxes cats b hbmem).2
    simp [hcount, countCat_allBoxes cats hnd b.cat hbcat]

/-- Every single generation attempt with well-formed random draws produces
a board that passes the post-condition validation: the distribution yields
exactly MAX_STACK_SIZE boxes per filled stack with no leftovers, and the
perturbation passes only permute boxes without changing stack lengths. -/
theorem generateOnce_valid (d : Difficulty) (cats : List Cat) (r : GenRand)
    (hlen : cats.length = (DIFFICULTY_CONFIG d).cats)
    (hnd : (cats.map Cat.id).Nodup)
    (hwf : GenRand.WF cats r) :
    ∃ b, generateOnce cats d r = some b ∧
      oversizedStacks b = false ∧ tooManyOfOneCat b = false := by
  obtain ⟨hshufPerm, hshufStack⟩ := hwf
  have hmixperm := mixedBoxes_perm d r.preMatchPicks r.shuffled cats
    hshufPerm hnd
  unfold generateOnce
  simp only []
  set F := (DIFFICULTY_CONFIG d).stacksN - (DIFFICULTY_CONFIG d).emptyStacks
    with hF
  set mixed := mixedBoxes d r.preMatchPicks r.shuffled with hmixed
  have hfc : F = cats.length := by rw [hF, hlen]; cases d <;> rfl
  have hf2 : 2 ≤ F := by rw [hfc, hlen]; cases d <;> decide
  have hbps : min MAX_STACK_SIZE (((allBoxesFor cats).length + F - 1) / F) =
      MAX_STACK_SIZE := by
    rw [hF, length_allBoxes, hlen]
    cases d <;> decide
  rw [hbps]
  have hmixlen : mixed.length = F * MAX_STACK_SIZE := by
    rw [hmixed, hmixperm.length_eq, length_allBoxes, hfc]
  have hdrop : mixed.drop (F * MAX_STACK_SIZE) = [] :=
    List.drop_eq_nil_of_le (le_of_eq hmixlen)
  rw [hdrop, distributeLeftovers_nil]
  set firstPass := firstPassStacks mixed F MAX_STACK_SIZE with hfp
  set w := firstPass ++ List.replicate (DIFFICULTY_CONFIG d).emptyStacks []
    with hw
  have hfplen : firstPass.length = F := by rw [hfp]; exact firstPass_length ..
  have hwlen : F ≤ w.length := by
    rw [hw, List.length_append, hfplen]
    omega
  have hwstack4 : ∀ k, k < F → (w.getD k []).length = MAX_STACK_SIZE := by
    intro k hk
    rw [hw, List.getD_append _ _ _ k (by rw [hfplen]; exact hk), hfp]
    exact firstPass_stack_lengths mixed F MAX_STACK_SIZE hmixlen k hk
  have hwle : ∀ k, (w.getD k []).length ≤ MAX_STACK_SIZE := by
    intro k
    by_cases hk : k < F
    · rw [hwstack4 k hk]
    · rw [hw, List.getD_append_right _ _ _ _ (by rw [hfplen]; omega)]
      by_cases hm : k - firstPass.length <
          (DIFFICULTY_CONFIG d).emptyStacks
      · rw [List.getD_eq_getElem _ _ (by simpa using hm)]
        simp [List.getElem_replicate]
      · rw [List.getD_eq_default _ _ (by simpa using Nat.not_lt.mp hm)]
        simp
  have hwflat : w.flatten.Perm (allBoxesFor cats) := by
    rw [hw, List.flatten_append, List.flatten_replicate_nil, List.append_nil,
      hfp, firstPass_flatten mixed F MAX_STACK_SIZE hmixlen]
    exact hmixperm
  have key : ∀ pert, BoardShape w pert →
      ∃ b, some (breakupStep F r.breakCoin r.breakPicks pert) = some b ∧
        oversizedStacks b = false ∧ tooManyOfOneCat b = false := by
    intro pert hp
    exact ⟨_, rfl, validation_of_shape cats w _ hnd hwle hwflat
      (breakupStep_shape F r.breakCoin r.breakPicks w pert hf2 hwlen hp)⟩
  cases d with
  | easy => exact key _ (easyGrouping_shape F r.sortBools w w (BoardShape.refl w))
  | medium =>
    exact key _ (antiMonolith_shape F r.shuffleStack r.monoPicks w w hf2 hwlen
      hwstack4 hshufStack (BoardShape.refl w))
  | hard =>
    exact key _ (antiMonolith_shape F r.shuffleStack r.monoPicks w w hf2 hwlen
      hwstack4 hshufStack (BoardShape.refl w))

/-- C8: generation always terminates, in a single attempt.  For every
difficulty, every cat selection of the configured size with distinct ids
and every well-formed random source, the very first attempt already
satisfies both post-condition checks, so the validated board is returned
for every attempt budget of at least one: the regeneration branch — which
in the source is an unguarded recursive call (CatSort.tsx:309) with no
retry bound or failure signal — is never taken. -/
theorem generation_first_attempt_succeeds (d : Difficulty) (cats : List Cat)
    (rands : Nat → GenRand)
    (hlen : cats.length = (DIFFICULTY_CONFIG d).cats)
    (hnd : (cats.map Cat.id).Nodup)
    (hwf : GenRand.WF cats (rands 0)) :
    ∃ b, (∀ fuel, 1 ≤ fuel → initializeGame cats d rands fuel = some b) ∧
      oversizedStacks b = false ∧ tooManyOfOneCat b = false := by
  rcases generateOnce_valid d cats (rands 0) hlen hnd hwf with
    ⟨b, hgen, hov, htm⟩
  have hpos : 0 < cats.length := by rw [hlen]; cases d <;> decide
  have hne : cats.isEmpty = false := by
    cases cats with
    | nil => simp at hpos
    | cons a t => rfl
  refine ⟨b, ?_, hov, htm⟩
  intro fuel hf
  cases fuel with
  | zero => omega
  | succ n =>
    simp [initializeGame, initializeGameAux, hne, hgen, hov, htm]

/-- Witness for C8 at a concrete input: 4 cats on easy difficulty with
identity shuffles generate a validated board in one attempt. -/
theorem generation_first_attempt_succeeds_witness :
    ∃ b, (∀ fuel, 1 ≤ fuel →
        initializeGame c8Cats Difficulty.easy (fun _ => c8Rand) fuel =
          some b) ∧
      oversizedStacks b = false ∧ tooManyOfOneCat b = false :=
  generation_first_attempt_succeeds Difficulty.easy c8Cats (fun _ => c8Rand)
    rfl (by decide) ⟨List.Perm.refl _, fun _ _ => List.Perm.refl _⟩

/-- Helper: the head of dropWhile does not satisfy the predicate. -/
theorem head?_dropWhile_false {α : Type} (p : α → Bool) (l : List α) :
    ∀ b, (l.dropWhile p).head? = some b → p b = false := by
  induction l with
  | nil => intro b h; simp at h
  | cons a t ih =>
    intro b h
    by_cases hp : p a = true
    · rw [List.dropWhile_cons_of_pos hp] at h
      exact ih b h
    · rw [List.dropWhile_cons_of_neg hp] at h
      simp at h
      subst h
      simpa using hp

/-- C7: getMatchingTopBoxes returns the maximal prefix (from the top,
index 0) of items whose cat equals the cat of the top item; for the empty
stack it returns the empty group.  Maximality: the group is a prefix of the
stack, every box in it has the cat of the top box, and the first box after
the group (if any) has a different cat. -/
theorem getMatchingTopBoxes_maximal_run (stack : Stack) :
    (stack = [] → getMatchingTopBoxes stack = []) ∧
    (∀ topBox rest, stack = topBox :: rest →
      (∃ suffix, stack = getMatchingTopBoxes stack ++ suffix ∧
        (∀ b, suffix.head? = some b → b.cat.id ≠ topBox.cat.id)) ∧
      (∀ b ∈ getMatchingTopBoxes stack, b.cat.id = topBox.cat.id)) := by
  constructor
  · intro h; subst h; rfl
  · intro topBox rest h
    subst h
    set p : CatBox → Bool := fun b => b.cat.id == topBox.cat.id with hp
    constructor
    · refine ⟨rest.dropWhile p, ?_, ?_⟩
      · simp only [getMatchingTopBoxes, List.cons_append, List.takeWhile_append_dropWhile]
      · intro b hb
        have := head?_dropWhile_false p rest b hb
        simpa [hp] using this
    · intro b hb
      simp only [getMatchingTopBoxes, List.mem_cons] at hb
      rcases hb with hb | hb
      · subst hb; rfl
      · have := List.mem_takeWhile_imp hb
        simpa [hp] using this

/-- Witness for C7 at a concrete stack: the top group of [X0, X1, Y0] is
[X0, X1]. -/
theorem getMatchingTopBoxes_maximal_run_witness :
    (∃ suffix, [boxX 0, boxX 1, boxY 0] =
        getMatchingTopBoxes [boxX 0, boxX 1, boxY 0] ++ suffix ∧
      (∀ b, suffix.head? = some b → b.cat.id ≠ (boxX 0).cat.id)) ∧
    (∀ b ∈ getMatchingTopBoxes [boxX 0, boxX 1, boxY 0],
      b.cat.id = (boxX 0).cat.id) :=
  (getMatchingTopBoxes_maximal_run [boxX 0, boxX 1, boxY 0]).2
    (boxX 0) [boxX 1, boxY 0] rfl

end CatSortModel

